import Mathlib

/-!
Shallow embedding of the core subsystems of the deterministic batch-auction
DEX: the uniform-price matching engine (`src/unnamed/part_005`, backed by the
types in `apps/web/lib/matching/types.ts`), the Merkle commitment subsystem
(`src/unnamed/part_007`), and the batch planner
(`src/services/coordinator/src/batchPlanner.ts`).

JavaScript numbers are modelled as exact rationals (`ℚ`); the value
`Infinity`, which the matching engine uses as the effective price of a market
buy and in midpoint computations, is modelled by the extended-price type
`EPx`.  JavaScript's stable `Array.prototype.sort` with a consistent
comparator is modelled by a stable insertion sort over a boolean "may come
first" relation.  `Buffer` values are modelled as `List Nat`, and SHA-256 is
an abstract parameter `sha`.  Database state for the batch planner is
modelled as an explicit list of planned-batch records for one market.
-/

/-- Order side, from `apps/web/lib/matching/types.ts` (`OrderSide`). -/
inductive Side where
  | BUY
  | SELL
deriving DecidableEq, Repr

/-- Order kind, from `apps/web/lib/matching/types.ts` (`OrderType`). -/
inductive OrderType where
  | MARKET
  | LIMIT
deriving DecidableEq, Repr

/-- An order, from `apps/web/lib/matching/types.ts` (`Order`).  `limitPx` is
`none` for market orders (`undefined` in the source). -/
structure Order where
  id : String
  side : Side
  qty : ℚ
  limitPx : Option ℚ
  timestamp : ℚ
  type : OrderType
deriving DecidableEq, Repr

/-- Extended price: a JavaScript number that is either a finite rational or
`Infinity`. -/
inductive EPx where
  | fin (q : ℚ)
  | inf
deriving DecidableEq, Repr

/-- An allocation produced by the matching engine
(`apps/web/lib/matching/types.ts`, `Allocation`). -/
structure Allocation where
  orderId : String
  filledQty : ℚ
  fillPrice : EPx
deriving DecidableEq, Repr

/-- JavaScript `a <= b` on extended prices (`Infinity <= Infinity` is true). -/
def eLEb : EPx → EPx → Bool
  | EPx.fin a, EPx.fin b => decide (a ≤ b)
  | EPx.fin _, EPx.inf => true
  | EPx.inf, EPx.fin _ => false
  | EPx.inf, EPx.inf => true

/-- JavaScript addition on extended prices (`x + Infinity = Infinity`;
`-Infinity` never occurs in the matching engine). -/
def eAdd : EPx → EPx → EPx
  | EPx.fin a, EPx.fin b => EPx.fin (a + b)
  | _, _ => EPx.inf

/-- JavaScript `x / 2` on extended prices. -/
def eHalf : EPx → EPx
  | EPx.fin a => EPx.fin (a / 2)
  | EPx.inf => EPx.inf

/-- JavaScript `Math.min` on extended prices. -/
def eMin : EPx → EPx → EPx
  | EPx.fin a, EPx.fin b => EPx.fin (min a b)
  | EPx.fin a, EPx.inf => EPx.fin a
  | EPx.inf, x => x

/-- `x.limitPx ?? Infinity`. -/
def pxOf : Option ℚ → EPx
  | none => EPx.inf
  | some q => EPx.fin q

/-- JavaScript `Math.round`: round half toward positive infinity. -/
def qRound (x : ℚ) : ℚ := ((⌊x + 1 / 2⌋ : ℤ) : ℚ)

/-- `alignToTick` from the matching engine: `Math.round(price / tickSize) *
tickSize`, with non-finite prices passed through unchanged. -/
def alignToTick (price : EPx) (tickSize : ℚ) : EPx :=
  match price with
  | EPx.inf => EPx.inf
  | EPx.fin q => EPx.fin (qRound (q / tickSize) * tickSize)

/-- Stable insertion step for sorting: `le a b` means "`a` may come before
`b`". -/
def insertB (le : α → α → Bool) (x : α) : List α → List α
  | [] => [x]
  | y :: ys => if le x y then x :: y :: ys else y :: insertB le x ys

/-- Stable insertion sort, modelling JavaScript's stable
`Array.prototype.sort` under a consistent comparator. -/
def isortB (le : α → α → Bool) : List α → List α
  | [] => []
  | x :: xs => insertB le x (isortB le xs)

/-- Boolean `≤` on rationals. -/
def qleB (a b : ℚ) : Bool := decide (a ≤ b)

/-- The buy comparator of `sortBuys`: price descending with market orders as
`Infinity`, ties broken by ascending timestamp. -/
def buyLE (a b : Order) : Bool :=
  match a.limitPx, b.limitPx with
  | none, none => decide (a.timestamp ≤ b.timestamp)
  | none, some _ => true
  | some _, none => false
  | some pa, some pb =>
      if pa = pb then decide (a.timestamp ≤ b.timestamp) else decide (pb < pa)

/-- The sell comparator of `sortSells`: price ascending with market orders as
`0`, ties broken by ascending timestamp. -/
def sellLE (a b : Order) : Bool :=
  if a.limitPx.getD 0 = b.limitPx.getD 0 then decide (a.timestamp ≤ b.timestamp)
  else decide (a.limitPx.getD 0 < b.limitPx.getD 0)

/-- `sortBuys` from the matching engine. -/
def sortBuys (buys : List Order) : List Order := isortB buyLE buys

/-- `sortSells` from the matching engine. -/
def sortSells (sells : List Order) : List Order := isortB sellLE sells

/-- Sum of the quantities of a list of orders. -/
def sumQty (l : List Order) : ℚ := (l.map Order.qty).sum

/-- Quantity of buy-side orders at exactly the limit price `p`
(`priceGroups[price].buys` summed). -/
def levelBuyQty (os : List Order) (p : ℚ) : ℚ :=
  sumQty (os.filter (fun o => decide (o.side = Side.BUY) && decide (o.limitPx = some p)))

/-- Quantity of sell-side orders at exactly the limit price `p`
(`priceGroups[price].sells` summed). -/
def levelSellQty (os : List Order) (p : ℚ) : ℚ :=
  sumQty (os.filter (fun o => decide (o.side = Side.SELL) && decide (o.limitPx = some p)))

/-- Insertion-order deduplication, modelling a JavaScript `Set`: the first
occurrence of each element is kept. -/
def dedupFirst (seen : List ℚ) : List ℚ → List ℚ
  | [] => []
  | x :: xs => if x ∈ seen then dedupFirst seen xs else x :: dedupFirst (x :: seen) xs

/-- The ascending list of distinct limit prices present in the book
(`allPrices` / `sortedPrices` in `findClearingPrice`). -/
def pxLevels (os : List Order) : List ℚ :=
  isortB qleB (dedupFirst [] (os.filterMap Order.limitPx))

/-- The crossing walk of `findClearingPrice`: at each ascending price level,
first add that level's sell quantity, then test
`cumulativeBuy >= cumulativeSell && cumulativeSell > 0` and stop at this
level if it holds, otherwise add that level's buy quantity and continue.
Returns the found price (`0` if none) and both accumulators at exit. -/
def walk (os : List Order) : List ℚ → ℚ → ℚ → ℚ × ℚ × ℚ
  | [], cb, cs => (0, cb, cs)
  | p :: ps, cb, cs =>
      let cs2 := cs + levelSellQty os p
      if cs2 ≤ cb ∧ 0 < cs2 then (p, cb, cs2)
      else walk os ps (cb + levelBuyQty os p) cs2

/-- The market orders of a list (`limitPx === undefined`). -/
def marketOrders (l : List Order) : List Order :=
  l.filter (fun o => o.limitPx.isNone)

/-- `findClearingPrice` from the matching engine, translated clause by
clause from the source. -/
def findClearingPrice (buys sells : List Order) (tickSize : ℚ) : EPx :=
  if buys = [] ∧ sells = [] then EPx.fin 0
  else if buys = [] then
    alignToTick
      (EPx.fin (match sells.head? with
        | some s => s.limitPx.getD 0
        | none => 0)) tickSize
  else if sells = [] then EPx.fin 0
  else
    let os := buys ++ sells
    let levels := pxLevels os
    if levels = [] then
      let bestBid : EPx :=
        match (sortBuys buys).head? with
        | some b => pxOf b.limitPx
        | none => EPx.inf
      let bestAsk : ℚ :=
        match (sortSells sells).head? with
        | some s => s.limitPx.getD 0
        | none => 0
      alignToTick (eHalf (eAdd bestBid (EPx.fin bestAsk))) tickSize
    else
      let w := walk os levels 0 0
      let mb := marketOrders buys
      let ms := marketOrders sells
      if w.1 = 0 ∧ (mb ≠ [] ∨ ms ≠ []) then
        let cb2 := w.2.1 + sumQty mb
        let cs2 := w.2.2 + sumQty ms
        if cs2 ≤ cb2 ∧ 0 < cs2 then
          let bestBid : ℚ := (buys.map (fun b => b.limitPx.getD 0)).foldl max 0
          let bestAsk : EPx := (sells.map (fun s => pxOf s.limitPx)).foldl eMin EPx.inf
          alignToTick (eHalf (eAdd (EPx.fin bestBid) bestAsk)) tickSize
        else alignToTick (EPx.fin 0) tickSize
      else alignToTick (EPx.fin w.1) tickSize

/-- Rounding used by pro-rata allocation:
`Math.floor(x * 1e9) / 1e9`. -/
def rnd9 (x : ℚ) : ℚ := ((⌊x * 1000000000⌋ : ℤ) : ℚ) / 1000000000

/-- The pro-rata loop of `allocateProRata`: every order but the last gets the
truncated proportional share, the last gets whatever remains. -/
def goAlloc (availableQty totalQty : ℚ) (clearingPrice : EPx) :
    List Order → ℚ → List Allocation
  | [], _ => []
  | [o], remaining => [⟨o.id, remaining, clearingPrice⟩]
  | o :: o2 :: rest, remaining =>
      let r := rnd9 (o.qty * availableQty / totalQty)
      ⟨o.id, r, clearingPrice⟩ ::
        goAlloc availableQty totalQty clearingPrice (o2 :: rest) (remaining - r)

/-- `allocateProRata` from the matching engine. -/
def allocateProRata (orders : List Order) (availableQty : ℚ)
    (clearingPrice : EPx) : List Allocation :=
  if availableQty ≤ 0 ∨ orders = [] then []
  else
    let totalQty := sumQty orders
    if totalQty ≤ availableQty then
      orders.map (fun o => ⟨o.id, o.qty, clearingPrice⟩)
    else goAlloc availableQty totalQty clearingPrice orders availableQty

/-- The matching engine's input record. -/
structure MatchingInput where
  buys : List Order
  sells : List Order
  tickSize : ℚ
deriving DecidableEq, Repr

/-- The matching engine's result record. -/
structure MatchingResult where
  clearingPrice : EPx
  allocations : List Allocation
  totalVolume : ℚ
deriving DecidableEq, Repr

/-- Participation test for a buy at the clearing price:
`side === 'BUY' && (type === 'MARKET' || limitPx >= clearingPrice)`. -/
def buyValid (cp : EPx) (o : Order) : Bool :=
  decide (o.side = Side.BUY) &&
    (decide (o.type = OrderType.MARKET) ||
      (match o.limitPx with
        | some p => eLEb cp (EPx.fin p)
        | none => false))

/-- Participation test for a sell at the clearing price:
`side === 'SELL' && (type === 'MARKET' || limitPx <= clearingPrice)`. -/
def sellValid (cp : EPx) (o : Order) : Bool :=
  decide (o.side = Side.SELL) &&
    (decide (o.type = OrderType.MARKET) ||
      (match o.limitPx with
        | some p => eLEb (EPx.fin p) cp
        | none => false))

/-- The buys that may participate at the clearing price (`validBuys`). -/
def validBuys (buys : List Order) (cp : EPx) : List Order :=
  buys.filter (buyValid cp)

/-- The sells that may participate at the clearing price (`validSells`). -/
def validSells (sells : List Order) (cp : EPx) : List Order :=
  sells.filter (sellValid cp)

/-- `matchOrders`, the main uniform price auction matching function. -/
def matchOrders (input : MatchingInput) : MatchingResult :=
  if input.buys = [] ∧ input.sells = [] then ⟨EPx.fin 0, [], 0⟩
  else
    let cp := findClearingPrice input.buys input.sells input.tickSize
    let vb := validBuys input.buys cp
    let vs := validSells input.sells cp
    if vb = [] ∨ vs = [] then ⟨cp, [], 0⟩
    else
      let sb := sortBuys vb
      let ss := sortSells vs
      let totalVolume := min (sumQty sb) (sumQty ss)
      ⟨cp, allocateProRata sb totalVolume cp ++ allocateProRata ss totalVolume cp,
        totalVolume⟩

/-- Sortedness for a boolean comparator: every element may come before every
later element. -/
def SortedB (le : α → α → Bool) (l : List α) : Prop :=
  l.Pairwise (fun a b => le a b = true)

/-- Key injectivity for the buy sort: no two distinct orders in the list
share both the effective buy price (`limitPx`, market buys all at `+∞`) and
the timestamp. -/
def BuyKeyInj (l : List Order) : Prop :=
  ∀ a ∈ l, ∀ b ∈ l, a.limitPx = b.limitPx → a.timestamp = b.timestamp → a = b

/-- Key injectivity for the sell sort: no two distinct orders in the list
share both the effective sell price (`limitPx ?? 0`) and the timestamp. -/
def SellKeyInj (l : List Order) : Prop :=
  ∀ a ∈ l, ∀ b ∈ l,
    a.limitPx.getD 0 = b.limitPx.getD 0 → a.timestamp = b.timestamp → a = b

/-- Buffer comparison (`Buffer.compare(a, b) < 0`): lexicographic on bytes,
with a strict prefix comparing less. -/
def bufLT : List Nat → List Nat → Bool
  | [], [] => false
  | [], _ :: _ => true
  | _ :: _, [] => false
  | a :: as, b :: bs => if a < b then true else if b < a then false else bufLT as bs

/-- `hashNode` from the Merkle subsystem: hash of the sorted pair, so that
the combination is order independent.  The SHA-256 primitive `sha` is an
abstract parameter. -/
def hashNode (sha : List Nat → List Nat) (a b : List Nat) : List Nat :=
  if bufLT a b then sha (a ++ b) else sha (b ++ a)

/-- The all-zero 32-byte padding digest (`Buffer.alloc(32)`). -/
def zeroBuf : List Nat := List.replicate 32 0

/-- One level-combination step of `buildTree`: hash adjacent pairs. -/
def pairUp (f : List Nat → List Nat → List Nat) :
    List (List Nat) → List (List Nat)
  | a :: b :: rest => f a b :: pairUp f rest
  | _ => []

/-- Fuelled builder for the list of tree levels, bottom-up, stopping at a
single digest.  The fuel is only a structural-termination device; the
initial level length is always enough. -/
def buildLevelsGo (f : List Nat → List Nat → List Nat) :
    Nat → List (List Nat) → List (List (List Nat))
  | 0, lvl => [lvl]
  | fuel + 1, lvl =>
      if lvl.length ≤ 1 then [lvl] else lvl :: buildLevelsGo f fuel (pairUp f lvl)

/-- The list of tree levels of `buildTree`, starting at the padded leaves. -/
def buildLevels (f : List Nat → List Nat → List Nat) (lvl : List (List Nat)) :
    List (List (List Nat)) :=
  buildLevelsGo f lvl.length lvl

/-- Fuelled computation of the next power of two. -/
def pow2geGo (n : Nat) : Nat → Nat → Nat
  | 0, acc => acc
  | fuel + 1, acc => if n ≤ acc then acc else pow2geGo n fuel (acc * 2)

/-- `Math.pow(2, Math.ceil(Math.log2(n)))`: the least power of two that is
at least `n` (for `n ≥ 1`). -/
def nextPow2 (n : Nat) : Nat := pow2geGo n n 1

/-- A Merkle tree (`MerkleTree` in the source): root, padded leaves, and all
levels from padded leaves up to the root. -/
structure MerkleTree where
  root : List Nat
  leaves : List (List Nat)
  tree : List (List (List Nat))
deriving DecidableEq, Repr

/-- A Merkle proof (`MerkleProof` in the source). -/
structure MerkleProof where
  leaf : List Nat
  index : Int
  path : List (List Nat)
deriving DecidableEq, Repr

/-- The root of a level list: `tree[tree.length - 1][0]`. -/
def rootD (levels : List (List (List Nat))) : List Nat :=
  (levels.getLastD []).headD []

/-- `buildTree` from the Merkle subsystem: fails (throws) only on an empty
leaf list, pads the leaves on the right with all-zero digests to the next
power of two, and combines adjacent pairs level by level. -/
def buildTree (sha : List Nat → List Nat) (leaves : List (List Nat)) :
    Option MerkleTree :=
  if leaves = [] then none
  else
    let padded := leaves ++ List.replicate (nextPow2 leaves.length - leaves.length) zeroBuf
    let levels := buildLevels (hashNode sha) padded
    some ⟨rootD levels, padded, levels⟩

/-- The sibling path of `getProof`: walk every level except the last,
recording the digest at the index with the low bit flipped when present. -/
def proofPath (levels : List (List (List Nat))) (i : Nat) : List (List Nat) :=
  match levels with
  | [] => []
  | [_] => []
  | lvl :: rest =>
      let sib := if i % 2 == 1 then i - 1 else i + 1
      (match lvl[sib]? with
        | some s => [s]
        | none => []) ++ proofPath rest (i / 2)

/-- `getProof` from the Merkle subsystem: `null` for a negative index or an
index at or beyond `tree.leaves.length` (the padded leaf count), otherwise
the leaf, the index, and the sibling path. -/
def getProof (t : MerkleTree) (index : Int) : Option MerkleProof :=
  if index < 0 ∨ (t.leaves.length : Int) ≤ index then none
  else some ⟨t.leaves.getD index.toNat [], index, proofPath t.tree index.toNat⟩

/-- `verify` from the Merkle subsystem: refold the proof path onto the leaf
with `hashNode` (the source computes the hash in both orders but always
keeps the first, which is sound because `hashNode` sorts its inputs) and
compare with the root. -/
def verify (sha : List Nat → List Nat) (leaf : List Nat) (proof : MerkleProof)
    (root : List Nat) : Bool :=
  decide (proof.path.foldl (fun cur sib => hashNode sha cur sib) leaf = root)

/-- Batch lifecycle status (`BatchPlanStatus` in the Prisma schema). -/
inductive BatchPlanStatus where
  | PLANNED
  | INCLUSION_PUBLISHED
  | EXECUTED
  | FAILED
deriving DecidableEq, Repr

/-- A planned-batch record for one market: target slot, eta in epoch
milliseconds, and status. -/
structure PlannedBatch where
  slot : Int
  eta : Int
  status : BatchPlanStatus
deriving DecidableEq, Repr

/-- Status filter used when loading a market's batches in `planAllMarkets`:
`status IN (PLANNED, INCLUSION_PUBLISHED)`. -/
def knownStatus (b : PlannedBatch) : Bool :=
  decide (b.status = BatchPlanStatus.PLANNED) ||
    decide (b.status = BatchPlanStatus.INCLUSION_PUBLISHED)

/-- The market's future PLANNED/INCLUSION_PUBLISHED batches (`futureBatches`
in `planMarketBatches`: loaded by status, then filtered by `eta > now`). -/
def futureKnown (state : List PlannedBatch) (now : Int) : List PlannedBatch :=
  (state.filter knownStatus).filter (fun b => decide (now < b.eta))

/-- The eta of `latestFutureBatch`: the greatest future known eta, if any. -/
def latestFutureEta (state : List PlannedBatch) (now : Int) : Option Int :=
  ((futureKnown state now).map PlannedBatch.eta).max?

/-- Mock slot duration in milliseconds (400ms per slot). -/
def slotDurationMs : Int := 400

/-- `calculateBatchesToPlan` from the batch planner: start one cadence after
the latest known future batch (or after now), and emit `lookAheadBatches`
consecutive etas spaced one cadence apart. -/
def calculateBatchesToPlan (now : Int) (latestEta : Option Int)
    (cadenceSec : Int) (lookAheadBatches : Nat) : List Int :=
  let nextBatchTime : Int :=
    match latestEta with
    | some e => e + cadenceSec * 1000
    | none => now + cadenceSec * 1000
  (List.range lookAheadBatches).map
    (fun i : Nat => nextBatchTime + (i : Int) * (cadenceSec * 1000))

/-- `planSingleBatch` from the batch planner, on the success path of the
reservation call: skip if any existing batch (of any status) has an eta
within 100ms of the candidate time, otherwise persist a new PLANNED batch at
slot `floor(batchTime / 400)`. -/
def planSingleBatch (state : List PlannedBatch) (batchTime : Int) :
    List PlannedBatch :=
  if state.any (fun b =>
      decide (batchTime - 100 ≤ b.eta) && decide (b.eta ≤ batchTime + 100)) then
    state
  else state ++ [⟨batchTime.fdiv slotDurationMs, batchTime, BatchPlanStatus.PLANNED⟩]

/-- `planMarketBatches` from the batch planner (one planning pass for one
market, with every reservation succeeding): compute the candidate times and
plan each in order. -/
def planMarketBatches (now : Int) (state : List PlannedBatch)
    (cadenceSec : Int) (lookAheadBatches : Nat) : List PlannedBatch :=
  (calculateBatchesToPlan now (latestFutureEta state now) cadenceSec
    lookAheadBatches).foldl planSingleBatch state

/-- `getBatchCutoffTime` from the batch planner: `eta − cutoffLeadMs`. -/
def getBatchCutoffTime (batchTime cutoffLeadMs : Int) : Int :=
  batchTime - cutoffLeadMs

/-- Prisma `findFirst` with `orderBy eta asc`: the first batch with minimal
eta. -/
def findMinEta (l : List PlannedBatch) : Option PlannedBatch :=
  l.foldl
    (fun acc b =>
      match acc with
      | none => some b
      | some a => if b.eta < a.eta then some b else some a)
    none

/-- `findNextBatchForOrder` from the batch planner: the earliest PLANNED
batch with `eta > now + cutoffLeadMs`, paired with its cutoff time; with no
qualifying batch, `(null, now)`. -/
def findNextBatchForOrder (state : List PlannedBatch) (now cutoffLeadMs : Int) :
    Option PlannedBatch × Int :=
  let candidates := state.filter (fun b =>
    decide (b.status = BatchPlanStatus.PLANNED) &&
      decide (now + cutoffLeadMs < b.eta))
  match findMinEta candidates with
  | none => (none, now)
  | some b => (some b, getBatchCutoffTime b.eta cutoffLeadMs)



/-- First spec example, buy side: `100@10.5`. -/
def exABuy1 : Order := ⟨"buy1", Side.BUY, 100, some (21/2), 1000, OrderType.LIMIT⟩

/-- First spec example, buy side: `100@10.0`. -/
def exABuy2 : Order := ⟨"buy2", Side.BUY, 100, some 10, 1001, OrderType.LIMIT⟩

/-- First spec example, sell side: `100@11.0`. -/
def exASell1 : Order := ⟨"sell1", Side.SELL, 100, some 11, 1002, OrderType.LIMIT⟩

/-- First spec example, sell side: `100@11.5`. -/
def exASell2 : Order := ⟨"sell2", Side.SELL, 100, some (23/2), 1003, OrderType.LIMIT⟩

/-- Second spec example, buy side: `50@11.0`. -/
def exBBuy1 : Order := ⟨"buy1", Side.BUY, 50, some 11, 1000, OrderType.LIMIT⟩

/-- Second spec example, buy side: `50@11.0`, later timestamp. -/
def exBBuy2 : Order := ⟨"buy2", Side.BUY, 50, some 11, 1001, OrderType.LIMIT⟩

/-- Second spec example, sell side: `70@10.0`. -/
def exBSell1 : Order := ⟨"sell1", Side.SELL, 70, some 10, 1002, OrderType.LIMIT⟩

/-- Default order value, used only for out-of-range list indexing. -/
def dOrd : Order := ⟨"", Side.BUY, 0, none, 0, OrderType.LIMIT⟩

/-- Default allocation value, used only for out-of-range list indexing. -/
def dAlloc : Allocation := ⟨"", 0, EPx.fin 0⟩

/-- Over-subscribed side used to exercise pro-rata allocation: `1@10`. -/
def exCBuy1 : Order := ⟨"buy1", Side.BUY, 1, some 10, 1000, OrderType.LIMIT⟩

/-- Over-subscribed side used to exercise pro-rata allocation: `2@10`. -/
def exCBuy2 : Order := ⟨"buy2", Side.BUY, 2, some 10, 1001, OrderType.LIMIT⟩

/-- Market buy used to exercise the all-market-order path. -/
def exDBuy : Order := ⟨"mbuy", Side.BUY, 100, none, 1000, OrderType.MARKET⟩

/-- Market sell used to exercise the all-market-order path. -/
def exDSell : Order := ⟨"msell", Side.SELL, 100, none, 1001, OrderType.MARKET⟩

/-- Concrete stand-in for the SHA-256 primitive, used only in witnesses. -/
def cSha : List Nat → List Nat := fun _ => [0]

/-- Concrete Merkle leaf. -/
def cLeaf1 : List Nat := [1]

/-- Concrete Merkle leaf. -/
def cLeaf2 : List Nat := [2]

/-- Concrete Merkle leaf. -/
def cLeaf3 : List Nat := [3]

/-- The tree built by `buildTree cSha [cLeaf1, cLeaf2, cLeaf3]`: three
leaves padded to four, with every internal digest `[0]` under `cSha`. -/
def cTree3 : MerkleTree :=
  ⟨[0], [[1], [2], [3], zeroBuf],
    [[[1], [2], [3], zeroBuf], [[0], [0]], [[0]]]⟩

/-- Concrete planned batch used by the planner witnesses: eta 1000ms, slot
`floor(1000 / 400) = 2`. -/
def exPB : PlannedBatch := ⟨2, 1000, BatchPlanStatus.PLANNED⟩

/-- Rewrite form of cons-ne-nil, used to evaluate list emptiness tests. -/
theorem listConsNeNil (a : α) (l : List α) : (a :: l = []) = False := by simp

/-- Evaluation fact for the derived decidable equality on `Side`. -/
theorem dSideBB : decide (Side.BUY = Side.BUY) = true := rfl

/-- Evaluation fact for the derived decidable equality on `Side`. -/
theorem dSideBS : decide (Side.BUY = Side.SELL) = false := rfl

/-- Evaluation fact for the derived decidable equality on `Side`. -/
theorem dSideSB : decide (Side.SELL = Side.BUY) = false := rfl

/-- Evaluation fact for the derived decidable equality on `Side`. -/
theorem dSideSS : decide (Side.SELL = Side.SELL) = true := rfl

/-- Evaluation fact for the derived decidable equality on `OrderType`. -/
theorem dTypeLM : decide (OrderType.LIMIT = OrderType.MARKET) = false := rfl

/-- Evaluation fact for the derived decidable equality on `OrderType`. -/
theorem dTypeMM : decide (OrderType.MARKET = OrderType.MARKET) = true := rfl

/-- C1: the spec (and the repository's own vitest suite) claims that for buys
`{100@10.5, 100@10.0}` and sells `{100@11.0, 100@11.5}` with tick `0.01`,
`matchOrders` returns clearing price `10.5`, total volume `200` and all four
orders filled at `100`.  Evaluating the embedded `matchOrders` at exactly
that input instead yields clearing price `11`, zero total volume and no
allocations: the crossing walk accumulates buy quantity from price levels
below each tested level, declares a crossing at `11.0`, and both buys then
fail the participation filter.  The code therefore contradicts its own test
suite at this input. -/
theorem matchOrders_example_A_eval :
    matchOrders ⟨[exABuy1, exABuy2], [exASell1, exASell2], 1/100⟩ =
      ⟨EPx.fin 11, [], 0⟩ := by
  norm_num [listConsNeNil, matchOrders, findClearingPrice, pxLevels, dedupFirst, walk,
    levelBuyQty, levelSellQty, sumQty, marketOrders, alignToTick, qRound, qleB,
    isortB, insertB, List.filterMap, List.filter, exABuy1, exABuy2, exASell1, exASell2,
    validBuys, validSells, buyValid, sellValid, eLEb, sortBuys, sortSells, buyLE, sellLE,
    allocateProRata, goAlloc, rnd9, dSideBB, dSideBS, dSideSB, dSideSS, dTypeLM, dTypeMM]

/-- C2: the spec (and the repository's own vitest suite) claims that for buys
`{50@11.0, 50@11.0}` and sells `{70@10.0}` with tick `0.01`, `matchOrders`
returns clearing price `10.5`, total volume `100` and each buy filled at
`35`.  Evaluating the embedded `matchOrders` at exactly that input instead
yields clearing price `0`, zero total volume and no allocations: the
crossing walk tests the crossing before adding each level's buy quantity, so
no crossing is ever found, the clearing price stays `0`, and the sell then
fails the participation filter.  The code therefore contradicts its own test
suite at this input. -/
theorem matchOrders_example_B_eval :
    matchOrders ⟨[exBBuy1, exBBuy2], [exBSell1], 1/100⟩ =
      ⟨EPx.fin 0, [], 0⟩ := by
  norm_num [listConsNeNil, matchOrders, findClearingPrice, pxLevels, dedupFirst, walk,
    levelBuyQty, levelSellQty, sumQty, marketOrders, alignToTick, qRound, qleB,
    isortB, insertB, List.filterMap, List.filter, exBBuy1, exBBuy2, exBSell1,
    validBuys, validSells, buyValid, sellValid, eLEb, sortBuys, sortSells, buyLE, sellLE,
    allocateProRata, goAlloc, rnd9, dSideBB, dSideBS, dSideSB, dSideSS, dTypeLM, dTypeMM]

/-- C3 counterexample: with an empty buys array, `findClearingPrice` reads
the limit price of the first sell in input order (`sells[0]`), not the best
sell, so permuting the sells changes the returned clearing price: for sells
`{100@11.0, 100@11.5}` the result is `11`, for the reversed input it is
`11.5`.  `matchOrders` is therefore not permutation invariant as claimed. -/
theorem matchOrders_perm_counterexample :
    ([exASell1, exASell2] : List Order).Perm [exASell2, exASell1] ∧
      matchOrders ⟨[], [exASell1, exASell2], 1/100⟩ ≠
        matchOrders ⟨[], [exASell2, exASell1], 1/100⟩ := by
  constructor
  · exact List.Perm.swap _ _ _
  · have h1 : matchOrders ⟨[], [exASell1, exASell2], 1/100⟩ =
        ⟨EPx.fin 11, [], 0⟩ := by
      norm_num [listConsNeNil, matchOrders, findClearingPrice, alignToTick, qRound,
        validBuys, List.filter, exASell1, exASell2]
    have h2 : matchOrders ⟨[], [exASell2, exASell1], 1/100⟩ =
        ⟨EPx.fin (23/2), [], 0⟩ := by
      norm_num [listConsNeNil, matchOrders, findClearingPrice, alignToTick, qRound,
        validBuys, List.filter, exASell1, exASell2]
    rw [h1, h2]
    intro hc
    rw [MatchingResult.mk.injEq] at hc
    have := hc.1
    rw [EPx.fin.injEq] at this
    norm_num at this

theorem insertB_perm (le : α → α → Bool) (x : α) (l : List α) :
    (insertB le x l).Perm (x :: l) := by
  induction l with
  | nil => simp [insertB]
  | cons y ys ih =>
    simp only [insertB]
    split
    · exact List.Perm.refl _
    · exact (ih.cons y).trans (List.Perm.swap x y ys)

theorem isortB_perm (le : α → α → Bool) (l : List α) :
    (isortB le l).Perm l := by
  induction l with
  | nil => simp [isortB]
  | cons x xs ih =>
    exact (insertB_perm le x (isortB le xs)).trans (ih.cons x)

theorem insertB_sortedB {le : α → α → Bool}
    (htot : ∀ a b, le a b = true ∨ le b a = true)
    (htrans : ∀ a b c, le a b = true → le b c = true → le a c = true)
    (x : α) {l : List α} (hs : SortedB le l) : SortedB le (insertB le x l) := by
  induction l with
  | nil => simp [insertB, SortedB]
  | cons y ys ih =>
    rw [SortedB, List.pairwise_cons] at hs
    simp only [insertB]
    split
    case isTrue h =>
      rw [SortedB, List.pairwise_cons]
      refine ⟨fun b hb => ?_, List.Pairwise.cons hs.1 hs.2⟩
      rcases List.mem_cons.1 hb with rfl | hb
      · exact h
      · exact htrans x y b h (hs.1 b hb)
    case isFalse h =>
      rw [SortedB, List.pairwise_cons]
      refine ⟨fun b hb => ?_, ih hs.2⟩
      rcases List.mem_cons.1 ((insertB_perm le x ys).mem_iff.1 hb) with h1 | h1
      · rw [h1]
        rcases htot x y with h2 | h2
        · exact absurd h2 h
        · exact h2
      · exact hs.1 b h1

theorem isortB_sortedB {le : α → α → Bool}
    (htot : ∀ a b, le a b = true ∨ le b a = true)
    (htrans : ∀ a b c, le a b = true → le b c = true → le a c = true)
    (l : List α) : SortedB le (isortB le l) := by
  induction l with
  | nil => simp [isortB, SortedB]
  | cons x xs ih => exact insertB_sortedB htot htrans x ih

theorem sortedB_perm_eq {le : α → α → Bool} :
    ∀ {l₁ l₂ : List α},
      (∀ a ∈ l₁, ∀ b ∈ l₁, le a b = true → le b a = true → a = b) →
        l₁.Perm l₂ → SortedB le l₁ → SortedB le l₂ → l₁ = l₂
  | [], l₂, _, hp, _, _ => hp.nil_eq
  | a :: t₁, l₂, hanti, hp, h₁, h₂ => by
    cases l₂ with
    | nil => exact absurd hp.symm (by simp)
    | cons b t₂ =>
      have hab : a = b := by
        by_contra hne
        have hbmem : b ∈ a :: t₁ := hp.symm.subset (List.mem_cons_self b t₂)
        have hamem : a ∈ b :: t₂ := hp.subset (List.mem_cons_self a t₁)
        have hb₁ : b ∈ t₁ := by
          rcases List.mem_cons.1 hbmem with h | h
          · exact absurd h.symm hne
          · exact h
        have ha₂ : a ∈ t₂ := by
          rcases List.mem_cons.1 hamem with h | h
          · exact absurd h hne
          · exact h
        have hle₁ : le a b = true :=
          (List.pairwise_cons.1 h₁).1 b hb₁
        have hle₂ : le b a = true :=
          (List.pairwise_cons.1 h₂).1 a ha₂
        exact hne (hanti a (List.mem_cons_self a t₁) b hbmem hle₁ hle₂)
      subst hab
      have hp2 : t₁.Perm t₂ := hp.cons_inv
      have ht : t₁ = t₂ :=
        sortedB_perm_eq
          (fun x hx y hy => hanti x (List.mem_cons_of_mem a hx) y (List.mem_cons_of_mem a hy))
          hp2 (List.Pairwise.of_cons h₁) (List.Pairwise.of_cons h₂)
      rw [ht]

theorem isortB_eq_of_perm {le : α → α → Bool}
    (htot : ∀ a b, le a b = true ∨ le b a = true)
    (htrans : ∀ a b c, le a b = true → le b c = true → le a c = true)
    {l₁ l₂ : List α} (hp : l₁.Perm l₂)
    (hanti : ∀ a ∈ l₁, ∀ b ∈ l₁, le a b = true → le b a = true → a = b) :
    isortB le l₁ = isortB le l₂ := by
  refine sortedB_perm_eq ?_ ?_ (isortB_sortedB htot htrans l₁) (isortB_sortedB htot htrans l₂)
  · intro a ha b hb
    exact hanti a ((isortB_perm le l₁).mem_iff.1 ha) b ((isortB_perm le l₁).mem_iff.1 hb)
  · exact (isortB_perm le l₁).trans (hp.trans (isortB_perm le l₂).symm)

theorem qleB_total (a b : ℚ) : qleB a b = true ∨ qleB b a = true := by
  simp [qleB]
  exact le_total a b

theorem qleB_trans (a b c : ℚ) (h1 : qleB a b = true) (h2 : qleB b c = true) :
    qleB a c = true := by
  simp [qleB] at *
  exact le_trans h1 h2

theorem buyLE_total (a b : Order) : buyLE a b = true ∨ buyLE b a = true := by
  unfold buyLE
  cases ha : a.limitPx with
  | none =>
    cases hb : b.limitPx with
    | none => simpa using le_total a.timestamp b.timestamp
    | some pb => simp
  | some pa =>
    cases hb : b.limitPx with
    | none => simp
    | some pb =>
      rcases eq_or_ne pa pb with hpp | hpp
      · subst hpp
        simpa using le_total a.timestamp b.timestamp
      · rcases lt_or_gt_of_ne hpp with h | h
        · right
          simp [Ne.symm hpp, h]
        · left
          simp [hpp, h]

theorem buyLE_trans (a b c : Order) (h1 : buyLE a b = true)
    (h2 : buyLE b c = true) : buyLE a c = true := by
  unfold buyLE at *
  cases ha : a.limitPx with
  | none =>
    cases hc : c.limitPx with
    | none =>
      cases hb : b.limitPx with
      | none =>
        rw [ha, hb] at h1
        rw [hb, hc] at h2
        simp at h1 h2 ⊢
        exact le_trans h1 h2
      | some pb =>
        rw [hb, hc] at h2
        simp at h2
    | some pc => simp
  | some pa =>
    cases hb : b.limitPx with
    | none =>
      rw [ha, hb] at h1
      simp at h1
    | some pb =>
      cases hc : c.limitPx with
      | none =>
        rw [hb, hc] at h2
        simp at h2
      | some pc =>
        rw [ha, hb] at h1
        rw [hb, hc] at h2
        rcases eq_or_ne pa pb with hab | hab <;> rcases eq_or_ne pb pc with hbc | hbc
        · subst hab; subst hbc
          simp at h1 h2 ⊢
          exact le_trans h1 h2
        · subst hab
          simp [hbc] at h2
          simp [hbc, h2]
        · subst hbc
          simp [hab] at h1
          simp [hab, h1]
        · simp [hab] at h1
          simp [hbc] at h2
          have hac : pc < pa := lt_trans h2 h1
          simp [ne_of_gt hac, hac]

theorem buyLE_anti (a b : Order) (h1 : buyLE a b = true) (h2 : buyLE b a = true) :
    a.limitPx = b.limitPx ∧ a.timestamp = b.timestamp := by
  unfold buyLE at h1 h2
  cases ha : a.limitPx with
  | none =>
    cases hb : b.limitPx with
    | none =>
      rw [ha, hb] at h1 h2
      simp at h1 h2
      exact ⟨rfl, le_antisymm h1 h2⟩
    | some pb =>
      rw [ha, hb] at h2
      simp at h2
  | some pa =>
    cases hb : b.limitPx with
    | none =>
      rw [ha, hb] at h1
      simp at h1
    | some pb =>
      rw [ha, hb] at h1
      rw [hb, ha] at h2
      rcases eq_or_ne pa pb with hab | hab
      · subst hab
        simp at h1 h2
        exact ⟨rfl, le_antisymm h1 h2⟩
      · simp [hab] at h1
        simp [Ne.symm hab] at h2
        exact absurd (lt_trans h1 h2) (lt_irrefl _)

theorem sellLE_total (a b : Order) : sellLE a b = true ∨ sellLE b a = true := by
  unfold sellLE
  rcases eq_or_ne (a.limitPx.getD 0) (b.limitPx.getD 0) with h | h
  · rw [h]
    simpa using le_total a.timestamp b.timestamp
  · rcases lt_or_gt_of_ne h with hlt | hlt
    · left
      simp [h, hlt]
    · right
      simp [Ne.symm h, hlt]

theorem sellLE_trans (a b c : Order) (h1 : sellLE a b = true)
    (h2 : sellLE b c = true) : sellLE a c = true := by
  unfold sellLE at *
  rcases eq_or_ne (a.limitPx.getD 0) (b.limitPx.getD 0) with hab | hab <;>
    rcases eq_or_ne (b.limitPx.getD 0) (c.limitPx.getD 0) with hbc | hbc
  · rw [hab] at h1 ⊢
    rw [hbc] at h2 ⊢
    simp at h1 h2 ⊢
    exact le_trans h1 h2
  · rw [hab]
    simp [hbc] at h2
    simp [hbc, h2]
  · rw [← hbc] at h2 ⊢
    simp [hab] at h1
    simp [hab, h1]
  · simp [hab] at h1
    simp [hbc] at h2
    have hac : a.limitPx.getD 0 < c.limitPx.getD 0 := lt_trans h1 h2
    simp [ne_of_lt hac, hac]

theorem sellLE_anti (a b : Order) (h1 : sellLE a b = true) (h2 : sellLE b a = true) :
    a.limitPx.getD 0 = b.limitPx.getD 0 ∧ a.timestamp = b.timestamp := by
  unfold sellLE at h1 h2
  rcases eq_or_ne (a.limitPx.getD 0) (b.limitPx.getD 0) with hab | hab
  · rw [hab] at h1
    rw [← hab] at h2
    simp [hab] at h1 h2 ⊢
    exact le_antisymm h1 h2
  · simp [hab] at h1
    simp [Ne.symm hab] at h2
    exact absurd (lt_trans h1 h2) (lt_irrefl _)

theorem sortBuys_eq_of_perm {l₁ l₂ : List Order} (hp : l₁.Perm l₂)
    (hinj : BuyKeyInj l₁) : sortBuys l₁ = sortBuys l₂ :=
  isortB_eq_of_perm buyLE_total buyLE_trans hp
    (fun a ha b hb h1 h2 =>
      hinj a ha b hb (buyLE_anti a b h1 h2).1 (buyLE_anti a b h1 h2).2)

theorem sortSells_eq_of_perm {l₁ l₂ : List Order} (hp : l₁.Perm l₂)
    (hinj : SellKeyInj l₁) : sortSells l₁ = sortSells l₂ :=
  isortB_eq_of_perm sellLE_total sellLE_trans hp
    (fun a ha b hb h1 h2 =>
      hinj a ha b hb (sellLE_anti a b h1 h2).1 (sellLE_anti a b h1 h2).2)

theorem isortQ_eq_of_perm {l₁ l₂ : List ℚ} (hp : l₁.Perm l₂) :
    isortB qleB l₁ = isortB qleB l₂ :=
  isortB_eq_of_perm qleB_total qleB_trans hp
    (fun a _ b _ h1 h2 => le_antisymm (by simpa [qleB] using h1) (by simpa [qleB] using h2))

theorem mem_dedupFirst (seen : List ℚ) (l : List ℚ) (y : ℚ) :
    y ∈ dedupFirst seen l ↔ y ∈ l ∧ y ∉ seen := by
  induction l generalizing seen with
  | nil => simp [dedupFirst]
  | cons x xs ih =>
    simp only [dedupFirst]
    split
    case isTrue h =>
      rw [ih]
      simp only [List.mem_cons]
      constructor
      · rintro ⟨h1, h2⟩
        exact ⟨Or.inr h1, h2⟩
      · rintro ⟨h1 | h1, h2⟩
        · rw [h1] at h2
          exact absurd h h2
        · exact ⟨h1, h2⟩
    case isFalse h =>
      simp only [List.mem_cons, ih, List.mem_cons, not_or]
      constructor
      · rintro (rfl | ⟨h1, h2, h3⟩)
        · exact ⟨Or.inl rfl, h⟩
        · exact ⟨Or.inr h1, h3⟩
      · rintro ⟨rfl | h1, h2⟩
        · exact Or.inl rfl
        · rcases eq_or_ne y x with rfl | hyx
          · exact Or.inl rfl
          · exact Or.inr ⟨h1, hyx, h2⟩

theorem nodup_dedupFirst (seen : List ℚ) (l : List ℚ) :
    (dedupFirst seen l).Nodup := by
  induction l generalizing seen with
  | nil => simp [dedupFirst]
  | cons x xs ih =>
    simp only [dedupFirst]
    split
    · exact ih seen
    · refine List.Nodup.cons ?_ (ih (x :: seen))
      intro hmem
      exact ((mem_dedupFirst (x :: seen) xs x).1 hmem).2 (List.mem_cons_self x seen)

theorem pxLevels_eq_of_perm {os₁ os₂ : List Order} (hp : os₁.Perm os₂) :
    pxLevels os₁ = pxLevels os₂ := by
  unfold pxLevels
  refine isortQ_eq_of_perm ?_
  refine (List.perm_ext_iff_of_nodup (nodup_dedupFirst [] _) (nodup_dedupFirst [] _)).2 ?_
  intro a
  rw [mem_dedupFirst, mem_dedupFirst]
  constructor
  · rintro ⟨h1, _⟩
    exact ⟨(hp.filterMap Order.limitPx).mem_iff.1 h1, by simp⟩
  · rintro ⟨h1, _⟩
    exact ⟨(hp.filterMap Order.limitPx).mem_iff.2 h1, by simp⟩

theorem permNilIff {α : Type _} {l₁ l₂ : List α} (hp : l₁.Perm l₂) :
    (l₁ = []) ↔ (l₂ = []) := by
  rw [← List.length_eq_zero, ← List.length_eq_zero, hp.length_eq]

theorem sumQty_eq_of_perm {l₁ l₂ : List Order} (hp : l₁.Perm l₂) :
    sumQty l₁ = sumQty l₂ :=
  (hp.map Order.qty).sum_eq

theorem levelBuyQty_eq_of_perm {os₁ os₂ : List Order} (hp : os₁.Perm os₂) (p : ℚ) :
    levelBuyQty os₁ p = levelBuyQty os₂ p :=
  sumQty_eq_of_perm (hp.filter _)

theorem levelSellQty_eq_of_perm {os₁ os₂ : List Order} (hp : os₁.Perm os₂) (p : ℚ) :
    levelSellQty os₁ p = levelSellQty os₂ p :=
  sumQty_eq_of_perm (hp.filter _)

theorem walk_congr {os₁ os₂ : List Order} (hp : os₁.Perm os₂) :
    ∀ (ls : List ℚ) (cb cs : ℚ), walk os₁ ls cb cs = walk os₂ ls cb cs := by
  intro ls
  induction ls with
  | nil => intro cb cs; rfl
  | cons p ps ih =>
    intro cb cs
    simp only [walk]
    rw [levelSellQty_eq_of_perm hp, levelBuyQty_eq_of_perm hp]
    split
    · rfl
    · exact ih _ _

theorem foldl_perm_of_comm {α β : Type _} {f : β → α → β}
    (hc : ∀ b x y, f (f b x) y = f (f b y) x)
    {l₁ l₂ : List α} (hp : l₁.Perm l₂) : ∀ b, l₁.foldl f b = l₂.foldl f b := by
  induction hp with
  | nil => intro b; rfl
  | cons x _ ih => intro b; simp only [List.foldl_cons]; exact ih _
  | swap x y l => intro b; simp only [List.foldl_cons]; rw [hc]
  | trans _ _ ih1 ih2 => intro b; rw [ih1 b, ih2 b]

theorem qmax_right_comm (b x y : ℚ) : max (max b x) y = max (max b y) x := by
  rw [max_assoc, max_comm x y, ← max_assoc]

theorem eMin_right_comm (b x y : EPx) : eMin (eMin b x) y = eMin (eMin b y) x := by
  cases b <;> cases x <;> cases y <;> simp [eMin, min_assoc, min_comm, min_left_comm]

theorem pxLevels_nil_limitPx {os : List Order} (h : pxLevels os = []) :
    ∀ o ∈ os, o.limitPx = none := by
  intro o ho
  cases hpx : o.limitPx with
  | none => rfl
  | some p =>
    exfalso
    have hmem : p ∈ os.filterMap Order.limitPx :=
      List.mem_filterMap.2 ⟨o, ho, hpx⟩
    have hmem2 : p ∈ dedupFirst [] (os.filterMap Order.limitPx) :=
      (mem_dedupFirst [] _ p).2 ⟨hmem, by simp⟩
    have hmem3 : p ∈ pxLevels os :=
      (isortB_perm qleB _).mem_iff.2 hmem2
    rw [h] at hmem3
    exact absurd hmem3 (List.not_mem_nil p)

theorem bestBid_allMarket {l : List Order} (h : ∀ o ∈ l, o.limitPx = none) :
    (match (sortBuys l).head? with
      | some b => pxOf b.limitPx
      | none => EPx.inf) = EPx.inf := by
  cases hh : (sortBuys l).head? with
  | none => rfl
  | some b =>
    have hbmem : b ∈ l :=
      (isortB_perm buyLE l).mem_iff.1 (List.mem_of_mem_head? hh)
    show pxOf b.limitPx = EPx.inf
    rw [h b hbmem]
    rfl

theorem bestAsk_allMarket {l : List Order} (h : ∀ o ∈ l, o.limitPx = none) :
    (match (sortSells l).head? with
      | some s => s.limitPx.getD 0
      | none => 0) = 0 := by
  cases hh : (sortSells l).head? with
  | none => rfl
  | some s =>
    have hsmem : s ∈ l :=
      (isortB_perm sellLE l).mem_iff.1 (List.mem_of_mem_head? hh)
    show s.limitPx.getD 0 = 0
    rw [h s hsmem]
    rfl

theorem findClearingPrice_perm {b₁ b₂ s₁ s₂ : List Order} (t : ℚ)
    (hb : b₁.Perm b₂) (hs : s₁.Perm s₂) (hbne : b₁ ≠ []) :
    findClearingPrice b₁ s₁ t = findClearingPrice b₂ s₂ t := by
  have hbne2 : b₂ ≠ [] := fun h => hbne ((permNilIff hb).2 h)
  have hA1 : ¬(b₁ = [] ∧ s₁ = []) := fun h => hbne h.1
  have hA2 : ¬(b₂ = [] ∧ s₂ = []) := fun h => hbne2 h.1
  simp only [findClearingPrice]
  rw [if_neg hA1, if_neg hA2, if_neg hbne, if_neg hbne2]
  by_cases hse : s₁ = []
  · have hse2 : s₂ = [] := (permNilIff hs).1 hse
    rw [if_pos hse, if_pos hse2]
  · have hse2 : s₂ ≠ [] := fun h => hse ((permNilIff hs).2 h)
    rw [if_neg hse, if_neg hse2]
    have hos : (b₁ ++ s₁).Perm (b₂ ++ s₂) := hb.append hs
    have hlv : pxLevels (b₁ ++ s₁) = pxLevels (b₂ ++ s₂) := pxLevels_eq_of_perm hos
    rw [hlv]
    by_cases hlvnil : pxLevels (b₂ ++ s₂) = []
    · rw [if_pos hlvnil, if_pos hlvnil]
      have hnone : ∀ o ∈ b₂ ++ s₂, o.limitPx = none := pxLevels_nil_limitPx hlvnil
      have hnone1 : ∀ o ∈ b₁ ++ s₁, o.limitPx = none := fun o ho =>
        hnone o (hos.subset ho)
      rw [bestBid_allMarket (fun o ho => hnone1 o (List.mem_append_left _ ho)),
        bestBid_allMarket (fun o ho => hnone o (List.mem_append_left _ ho)),
        bestAsk_allMarket (fun o ho => hnone1 o (List.mem_append_right _ ho)),
        bestAsk_allMarket (fun o ho => hnone o (List.mem_append_right _ ho))]
    · rw [if_neg hlvnil, if_neg hlvnil]
      rw [walk_congr hos (pxLevels (b₂ ++ s₂)) 0 0]
      have hmb : (marketOrders b₁).Perm (marketOrders b₂) := hb.filter _
      have hms : (marketOrders s₁).Perm (marketOrders s₂) := hs.filter _
      simp only [ne_eq, permNilIff hmb, permNilIff hms,
        sumQty_eq_of_perm hmb, sumQty_eq_of_perm hms,
        foldl_perm_of_comm qmax_right_comm (hb.map _) 0,
        foldl_perm_of_comm eMin_right_comm (hs.map _) EPx.inf]

/-- C3 amended: `matchOrders` is invariant under any permutation of the buys
array and any permutation of the sells array, provided the buys array is
non-empty (otherwise the clearing price is read from the first sell in input
order) and, on each side, no two orders share both the same effective sort
price and the same timestamp (otherwise the stable sort makes the pro-rata
remainder depend on input order). -/
theorem matchOrders_perm_invariant_amended
    (b₁ b₂ s₁ s₂ : List Order) (t : ℚ)
    (hb : b₁.Perm b₂) (hs : s₁.Perm s₂) (hbne : b₁ ≠ [])
    (hbinj : BuyKeyInj b₁) (hsinj : SellKeyInj s₁) :
    matchOrders ⟨b₁, s₁, t⟩ = matchOrders ⟨b₂, s₂, t⟩ := by
  have hbne2 : b₂ ≠ [] := fun h => hbne ((permNilIff hb).2 h)
  have hA1 : ¬(b₁ = [] ∧ s₁ = []) := fun h => hbne h.1
  have hA2 : ¬(b₂ = [] ∧ s₂ = []) := fun h => hbne2 h.1
  have hcp := findClearingPrice_perm t hb hs hbne
  simp only [matchOrders]
  rw [if_neg hA1, if_neg hA2, hcp]
  have hvb : (validBuys b₁ (findClearingPrice b₂ s₂ t)).Perm
      (validBuys b₂ (findClearingPrice b₂ s₂ t)) := hb.filter _
  have hvs : (validSells s₁ (findClearingPrice b₂ s₂ t)).Perm
      (validSells s₂ (findClearingPrice b₂ s₂ t)) := hs.filter _
  have hsb : sortBuys (validBuys b₁ (findClearingPrice b₂ s₂ t)) =
      sortBuys (validBuys b₂ (findClearingPrice b₂ s₂ t)) :=
    sortBuys_eq_of_perm hvb
      (fun a ha c hc h1 h2 =>
        hbinj a (List.mem_of_mem_filter ha) c (List.mem_of_mem_filter hc) h1 h2)
  have hss : sortSells (validSells s₁ (findClearingPrice b₂ s₂ t)) =
      sortSells (validSells s₂ (findClearingPrice b₂ s₂ t)) :=
    sortSells_eq_of_perm hvs
      (fun a ha c hc h1 h2 =>
        hsinj a (List.mem_of_mem_filter ha) c (List.mem_of_mem_filter hc) h1 h2)
  simp only [permNilIff hvb, permNilIff hvs, hsb, hss]

/-- C3 witness: the amended invariance theorem applied to a two-buy,
one-sell book with distinct buy prices, under swapping the two buys. -/
theorem matchOrders_perm_invariant_amended_witness :
    ([exABuy1, exABuy2] : List Order).Perm [exABuy2, exABuy1] ∧
      matchOrders ⟨[exABuy1, exABuy2], [exASell1], 1/100⟩ =
        matchOrders ⟨[exABuy2, exABuy1], [exASell1], 1/100⟩ := by
  refine ⟨List.Perm.swap _ _ _, ?_⟩
  refine matchOrders_perm_invariant_amended _ _ _ _ _ (List.Perm.swap _ _ _)
    (List.Perm.refl _) (by simp) ?_ ?_
  · intro a ha c hc h1 h2
    simp only [List.mem_cons, List.not_mem_nil, or_false] at ha hc
    rcases ha with rfl | rfl <;> rcases hc with rfl | rfl <;>
      first
        | rfl
        | (exfalso; norm_num [exABuy1, exABuy2] at h1)
  · intro a ha c hc h1 h2
    simp only [List.mem_cons, List.not_mem_nil, or_false] at ha hc
    rw [ha, hc]

theorem sumQty_cons (o : Order) (l : List Order) :
    sumQty (o :: l) = o.qty + sumQty l := by
  simp [sumQty]

theorem rnd9_le (x : ℚ) : rnd9 x ≤ x := by
  unfold rnd9
  rw [div_le_iff₀ (by norm_num : (0:ℚ) < 1000000000)]
  exact Int.floor_le _

theorem rnd9_nonneg {x : ℚ} (hx : 0 ≤ x) : 0 ≤ rnd9 x := by
  unfold rnd9
  apply div_nonneg _ (by norm_num)
  have : (0 : ℤ) ≤ ⌊x * 1000000000⌋ := Int.floor_nonneg.2 (by positivity)
  exact_mod_cast this

theorem goAlloc_ids (V T : ℚ) (cp : EPx) :
    ∀ (l : List Order) (rem : ℚ),
      (goAlloc V T cp l rem).map Allocation.orderId = l.map Order.id
  | [], _ => rfl
  | [_], _ => rfl
  | o :: o2 :: rest, rem => by
      simp only [goAlloc, List.map_cons]
      rw [show (goAlloc V T cp (o2 :: rest)
          (rem - rnd9 (o.qty * V / T))).map Allocation.orderId =
          (o2 :: rest).map Order.id from goAlloc_ids V T cp (o2 :: rest) _]
      simp

theorem goAlloc_sum (V T : ℚ) (cp : EPx) :
    ∀ (l : List Order) (rem : ℚ), l ≠ [] →
      ((goAlloc V T cp l rem).map Allocation.filledQty).sum = rem
  | [], _, hne => absurd rfl hne
  | [o], rem, _ => by simp [goAlloc]
  | o :: o2 :: rest, rem, _ => by
      simp only [goAlloc, List.map_cons, List.sum_cons]
      rw [goAlloc_sum V T cp (o2 :: rest) _ (by simp)]
      ring

theorem goAlloc_nonneg {V T : ℚ} (cp : EPx) (hT : 0 < T) (hV : 0 < V) :
    ∀ (l : List Order) (rem : ℚ), (∀ o ∈ l, 0 < o.qty) →
      sumQty l * (V / T) ≤ rem →
      ∀ a ∈ goAlloc V T cp l rem, 0 ≤ a.filledQty
  | [], _, _, _ => by simp [goAlloc]
  | [o], rem, hq, hrem => by
      intro a ha
      simp only [goAlloc, List.mem_singleton] at ha
      rw [ha]
      have h1 : 0 < o.qty * (V / T) :=
        mul_pos (hq o (List.mem_singleton_self o)) (div_pos hV hT)
      have h2 : sumQty [o] = o.qty := by simp [sumQty]
      rw [h2] at hrem
      simpa using le_trans (le_of_lt h1) hrem
  | o :: o2 :: rest, rem, hq, hrem => by
      intro a ha
      simp only [goAlloc, List.mem_cons] at ha
      rcases ha with rfl | ha
      · show 0 ≤ rnd9 (o.qty * V / T)
        apply rnd9_nonneg
        have hoq : 0 < o.qty := hq o (List.mem_cons_self o _)
        positivity
      · refine goAlloc_nonneg cp hT hV (o2 :: rest) _
          (fun x hx => hq x (List.mem_cons_of_mem o hx)) ?_ a ha
        have hr : rnd9 (o.qty * V / T) ≤ o.qty * (V / T) :=
          le_trans (rnd9_le (o.qty * V / T)) (le_of_eq (mul_div_assoc o.qty V T))
        rw [sumQty_cons] at hrem
        have hexp : (o.qty + sumQty (o2 :: rest)) * (V / T) =
            o.qty * (V / T) + sumQty (o2 :: rest) * (V / T) := by ring
        rw [hexp] at hrem
        linarith

theorem goAlloc_getD (V T : ℚ) (cp : EPx) :
    ∀ (l : List Order) (rem : ℚ) (i : Nat), i + 1 < l.length →
      (goAlloc V T cp l rem).getD i dAlloc =
        ⟨(l.getD i dOrd).id, rnd9 ((l.getD i dOrd).qty * V / T), cp⟩
  | [], _, i, h => by simp at h
  | [o], _, i, h => by simp at h
  | o :: o2 :: rest, rem, 0, _ => rfl
  | o :: o2 :: rest, rem, i + 1, h => by
      simp only [goAlloc, List.getD_cons_succ]
      exact goAlloc_getD V T cp (o2 :: rest) _ i (by simpa using h)

/-- C6: for every over-subscribed side (total requested quantity strictly
above the available volume) with positive order quantities and positive
available volume, `allocateProRata` keeps the side's orders (same ids in the
same order), every order except the last receives
`floor(qty * availableVolume / sideTotal * 1e9) / 1e9`, the side's filled
quantities sum to exactly the available volume (the last order receives the
remainder), and no allocation is negative. -/
theorem allocateProRata_exactness (orders : List Order) (V : ℚ) (cp : EPx)
    (hV : 0 < V) (hover : V < sumQty orders) (hq : ∀ o ∈ orders, 0 < o.qty) :
    (allocateProRata orders V cp).map Allocation.orderId = orders.map Order.id ∧
      ((allocateProRata orders V cp).map Allocation.filledQty).sum = V ∧
      (∀ a ∈ allocateProRata orders V cp, 0 ≤ a.filledQty) ∧
      (∀ i, i + 1 < orders.length →
        ((allocateProRata orders V cp).getD i dAlloc).filledQty =
          rnd9 ((orders.getD i dOrd).qty * V / sumQty orders)) := by
  have hne : orders ≠ [] := by
    intro h
    rw [h] at hover
    simp [sumQty] at hover
    linarith
  have hT : 0 < sumQty orders := lt_trans hV hover
  have hcond : ¬(V ≤ 0 ∨ orders = []) := by
    rintro (h | h)
    · linarith
    · exact hne h
  simp only [allocateProRata, if_neg hcond, if_neg (not_le.2 hover)]
  refine ⟨goAlloc_ids _ _ _ _ _, goAlloc_sum _ _ _ _ _ hne, ?_, ?_⟩
  · refine goAlloc_nonneg cp hT hV orders V hq (le_of_eq ?_)
    rw [mul_comm, div_mul_cancel₀ _ (ne_of_gt hT)]
  · intro i hi
    rw [goAlloc_getD V (sumQty orders) cp orders V i hi]

/-- C6 witness: the exactness theorem applied to the concrete over-subscribed
buy side `{1@10, 2@10}` with available volume `2`. -/
theorem allocateProRata_exactness_witness :
    (allocateProRata [exCBuy1, exCBuy2] 2 (EPx.fin 5)).map Allocation.orderId =
        ([exCBuy1, exCBuy2].map Order.id) ∧
      ((allocateProRata [exCBuy1, exCBuy2] 2 (EPx.fin 5)).map
          Allocation.filledQty).sum = 2 ∧
      (∀ a ∈ allocateProRata [exCBuy1, exCBuy2] 2 (EPx.fin 5), 0 ≤ a.filledQty) ∧
      (∀ i, i + 1 < ([exCBuy1, exCBuy2] : List Order).length →
        ((allocateProRata [exCBuy1, exCBuy2] 2 (EPx.fin 5)).getD i dAlloc).filledQty =
          rnd9 ((([exCBuy1, exCBuy2] : List Order).getD i dOrd).qty * 2 /
            sumQty [exCBuy1, exCBuy2])) :=
  allocateProRata_exactness [exCBuy1, exCBuy2] 2 (EPx.fin 5) (by norm_num)
    (by norm_num [sumQty, exCBuy1, exCBuy2])
    (by
      intro o ho
      simp only [List.mem_cons, List.not_mem_nil, or_false] at ho
      rcases ho with rfl | rfl <;> norm_num [exCBuy1, exCBuy2])

theorem sumQty_nonneg {l : List Order} (hq : ∀ o ∈ l, 0 ≤ o.qty) :
    0 ≤ sumQty l := by
  induction l with
  | nil => simp [sumQty]
  | cons o rest ih =>
    rw [sumQty_cons]
    have h1 := hq o (List.mem_cons_self o rest)
    have h2 := ih (fun x hx => hq x (List.mem_cons_of_mem o hx))
    linarith

theorem sumQty_pos {l : List Order} (hne : l ≠ []) (hq : ∀ o ∈ l, 0 < o.qty) :
    0 < sumQty l := by
  cases l with
  | nil => exact absurd rfl hne
  | cons o rest =>
    rw [sumQty_cons]
    have h1 := hq o (List.mem_cons_self o rest)
    have h2 : 0 ≤ sumQty rest :=
      sumQty_nonneg (fun x hx => le_of_lt (hq x (List.mem_cons_of_mem o hx)))
    linarith

theorem allocateProRata_ids (orders : List Order) (V : ℚ) (cp : EPx)
    (hV : 0 < V) :
    (allocateProRata orders V cp).map Allocation.orderId = orders.map Order.id := by
  by_cases hne : orders = []
  · rw [hne]
    simp [allocateProRata]
  · have hcond : ¬(V ≤ 0 ∨ orders = []) := by
      rintro (h | h)
      · linarith
      · exact hne h
    simp only [allocateProRata, if_neg hcond]
    split
    · simp
    · exact goAlloc_ids _ _ _ _ _

/-- C9: whenever `matchOrders` reports nonzero volume (with positive order
quantities), its allocations list is exactly the buy-side allocations
followed by the sell-side allocations, each side listed in its priority
order: the buy part's order ids are the participating buys sorted by the buy
comparator (descending limit price, market buys first, then ascending
timestamp) and the sell part's order ids are the participating sells sorted
by the sell comparator (ascending limit price, market sells first, then
ascending timestamp). -/
theorem matchOrders_allocation_order (input : MatchingInput)
    (hq : ∀ o ∈ input.buys ++ input.sells, 0 < o.qty)
    (hv : (matchOrders input).totalVolume ≠ 0) :
    ∃ bl sl : List Order,
      bl.Perm (validBuys input.buys
        (findClearingPrice input.buys input.sells input.tickSize)) ∧
      SortedB buyLE bl ∧
      sl.Perm (validSells input.sells
        (findClearingPrice input.buys input.sells input.tickSize)) ∧
      SortedB sellLE sl ∧
      (matchOrders input).allocations.map Allocation.orderId =
        bl.map Order.id ++ sl.map Order.id := by
  by_cases h0 : input.buys = [] ∧ input.sells = []
  · exact absurd (by simp [matchOrders, h0]) hv
  · by_cases h1 :
      validBuys input.buys
          (findClearingPrice input.buys input.sells input.tickSize) = [] ∨
        validSells input.sells
          (findClearingPrice input.buys input.sells input.tickSize) = []
    · refine absurd ?_ hv
      simp only [matchOrders, if_neg h0]
      rw [if_pos h1]
    · push_neg at h1
      refine ⟨sortBuys (validBuys input.buys
          (findClearingPrice input.buys input.sells input.tickSize)),
        sortSells (validSells input.sells
          (findClearingPrice input.buys input.sells input.tickSize)),
        isortB_perm _ _, isortB_sortedB buyLE_total buyLE_trans _,
        isortB_perm _ _, isortB_sortedB sellLE_total sellLE_trans _, ?_⟩
      have hqb : ∀ o ∈ validBuys input.buys
          (findClearingPrice input.buys input.sells input.tickSize), 0 < o.qty :=
        fun o ho =>
          hq o (List.mem_append_left _ (List.mem_of_mem_filter ho))
      have hqs : ∀ o ∈ validSells input.sells
          (findClearingPrice input.buys input.sells input.tickSize), 0 < o.qty :=
        fun o ho =>
          hq o (List.mem_append_right _ (List.mem_of_mem_filter ho))
      have hsbq : ∀ o ∈ sortBuys (validBuys input.buys
          (findClearingPrice input.buys input.sells input.tickSize)), 0 < o.qty :=
        fun o ho => hqb o ((isortB_perm _ _).mem_iff.1 ho)
      have hssq : ∀ o ∈ sortSells (validSells input.sells
          (findClearingPrice input.buys input.sells input.tickSize)), 0 < o.qty :=
        fun o ho => hqs o ((isortB_perm _ _).mem_iff.1 ho)
      have hsbne : sortBuys (validBuys input.buys
          (findClearingPrice input.buys input.sells input.tickSize)) ≠ [] :=
        fun h => h1.1 ((permNilIff (isortB_perm _ _)).1 h)
      have hssne : sortSells (validSells input.sells
          (findClearingPrice input.buys input.sells input.tickSize)) ≠ [] :=
        fun h => h1.2 ((permNilIff (isortB_perm _ _)).1 h)
      have hvol : 0 < min
          (sumQty (sortBuys (validBuys input.buys
            (findClearingPrice input.buys input.sells input.tickSize))))
          (sumQty (sortSells (validSells input.sells
            (findClearingPrice input.buys input.sells input.tickSize)))) :=
        lt_min (sumQty_pos hsbne hsbq) (sumQty_pos hssne hssq)
      simp only [matchOrders, if_neg h0]
      rw [if_neg (by
        rintro (h | h)
        · exact h1.1 h
        · exact h1.2 h)]
      simp only [List.map_append]
      rw [allocateProRata_ids _ _ _ hvol, allocateProRata_ids _ _ _ hvol]

/-- C9 witness: the allocation-order theorem applied to the all-market book
`buys {100 MARKET}`, `sells {100 MARKET}`, which clears with volume `100`. -/
theorem matchOrders_allocation_order_witness :
    ∃ bl sl : List Order,
      bl.Perm (validBuys [exDBuy]
        (findClearingPrice [exDBuy] [exDSell] (1/100))) ∧
      SortedB buyLE bl ∧
      sl.Perm (validSells [exDSell]
        (findClearingPrice [exDBuy] [exDSell] (1/100))) ∧
      SortedB sellLE sl ∧
      (matchOrders ⟨[exDBuy], [exDSell], 1/100⟩).allocations.map Allocation.orderId =
        bl.map Order.id ++ sl.map Order.id :=
  matchOrders_allocation_order ⟨[exDBuy], [exDSell], 1/100⟩
    (by
      intro o ho
      simp only [List.cons_append, List.nil_append, List.mem_cons,
        List.not_mem_nil, or_false] at ho
      rcases ho with rfl | rfl <;> norm_num [exDBuy, exDSell])
    (by
      norm_num [listConsNeNil, matchOrders, findClearingPrice, pxLevels, dedupFirst,
        walk, levelBuyQty, levelSellQty, sumQty, marketOrders, alignToTick, qRound,
        qleB, isortB, insertB, List.filterMap, List.filter, exDBuy, exDSell,
        validBuys, validSells, buyValid, sellValid, eLEb, sortBuys, sortSells,
        buyLE, sellLE, pxOf, eAdd, eHalf, dSideBB, dSideBS, dSideSB, dSideSS,
        dTypeLM, dTypeMM])

theorem pow2geGo_ge (n : Nat) :
    ∀ (fuel acc : Nat), n ≤ acc * 2 ^ fuel → n ≤ pow2geGo n fuel acc
  | 0, acc, h => by simpa [pow2geGo] using h
  | fuel + 1, acc, h => by
      simp only [pow2geGo]
      split
      case isTrue h2 => exact h2
      case isFalse h2 =>
        refine pow2geGo_ge n fuel (acc * 2) ?_
        calc n ≤ acc * 2 ^ (fuel + 1) := h
          _ = acc * 2 * 2 ^ fuel := by ring

theorem nextPow2_ge (n : Nat) : n ≤ nextPow2 n := by
  refine pow2geGo_ge n n 1 ?_
  simpa using le_of_lt (Nat.lt_two_pow n)

theorem pow2geGo_pow (n : Nat) :
    ∀ (fuel acc : Nat), (∃ k, acc = 2 ^ k) → ∃ k, pow2geGo n fuel acc = 2 ^ k
  | 0, acc, h => by simpa [pow2geGo] using h
  | fuel + 1, acc, h => by
      simp only [pow2geGo]
      split
      · exact h
      · refine pow2geGo_pow n fuel (acc * 2) ?_
        obtain ⟨k, rfl⟩ := h
        exact ⟨k + 1, by ring⟩

theorem nextPow2_pow (n : Nat) : ∃ k, nextPow2 n = 2 ^ k :=
  pow2geGo_pow n n 1 ⟨0, rfl⟩

theorem pairUp_length (f : List Nat → List Nat → List Nat) :
    ∀ l : List (List Nat), (pairUp f l).length = l.length / 2
  | [] => by simp [pairUp]
  | [_] => by simp [pairUp]
  | _ :: _ :: rest => by
      simp only [pairUp, List.length_cons]
      rw [pairUp_length f rest]
      omega

theorem pairUp_getD (f : List Nat → List Nat → List Nat) :
    ∀ (l : List (List Nat)) (j : Nat), j < (pairUp f l).length →
      (pairUp f l).getD j [] = f (l.getD (2 * j) []) (l.getD (2 * j + 1) [])
  | [], j, h => by simp [pairUp] at h
  | [_], j, h => by simp [pairUp] at h
  | a :: b :: rest, 0, _ => rfl
  | a :: b :: rest, j + 1, h => by
      have h2 : 2 * (j + 1) = 2 * j + 1 + 1 := by ring
      rw [h2]
      simp only [pairUp, List.getD_cons_succ]
      refine pairUp_getD f rest j ?_
      simpa [pairUp] using h

theorem bufLT_asymm :
    ∀ a b : List Nat, bufLT a b = true → bufLT b a = false
  | [], [], h => by simp [bufLT] at h
  | [], _ :: _, _ => rfl
  | _ :: _, [], h => by simp [bufLT] at h
  | a :: as, b :: bs, h => by
      simp only [bufLT] at h ⊢
      by_cases hab : a < b
      · simp [hab, Nat.lt_asymm hab]
      · by_cases hba : b < a
        · simp [hab, hba] at h
        · simp only [hab, hba, if_false] at h ⊢
          exact bufLT_asymm as bs h

theorem bufLT_eq_of_not :
    ∀ a b : List Nat, bufLT a b = false → bufLT b a = false → a = b
  | [], [], _, _ => rfl
  | [], _ :: _, h, _ => by simp [bufLT] at h
  | _ :: _, [], _, h2 => by simp [bufLT] at h2
  | a :: as, b :: bs, h, h2 => by
      simp only [bufLT] at h h2
      by_cases hab : a < b
      · simp [hab] at h
      · by_cases hba : b < a
        · simp [hab, hba] at h2
        · have hcd : a = b := Nat.le_antisymm (Nat.not_lt.1 hba) (Nat.not_lt.1 hab)
          subst hcd
          simp only [hab, if_false] at h h2
          rw [bufLT_eq_of_not as bs h h2]

theorem hashNode_comm (sha : List Nat → List Nat) (a b : List Nat) :
    hashNode sha a b = hashNode sha b a := by
  unfold hashNode
  by_cases h : bufLT a b = true
  · rw [if_pos h, if_neg (by simp [bufLT_asymm a b h])]
  · by_cases h2 : bufLT b a = true
    · rw [if_neg h, if_pos h2]
    · have heq : a = b :=
        bufLT_eq_of_not a b (Bool.not_eq_true _ ▸ h) (Bool.not_eq_true _ ▸ h2)
      subst heq
      rfl

theorem buildLevelsGo_ne_nil (f : List Nat → List Nat → List Nat) :
    ∀ (fuel : Nat) (lvl : List (List Nat)), buildLevelsGo f fuel lvl ≠ []
  | 0, lvl => by simp [buildLevelsGo]
  | fuel + 1, lvl => by
      simp only [buildLevelsGo]
      split <;> simp

theorem rootD_cons {x : List (List Nat)} {rest : List (List (List Nat))}
    (hne : rest ≠ []) : rootD (x :: rest) = rootD rest := by
  cases rest with
  | nil => exact absurd rfl hne
  | cons y ys => simp [rootD, List.getLastD_cons]

theorem getD_eq_some_getElem {l : List (List Nat)} {j : Nat} (h : j < l.length) :
    l[j]? = some (l.getD j []) := by
  rw [List.getElem?_eq_getElem h]
  rw [List.getD_eq_getElem _ _ h]

theorem buildLevelsGo_verify (f : List Nat → List Nat → List Nat)
    (hf : ∀ a b, f a b = f b a) :
    ∀ (k fuel : Nat) (lvl : List (List Nat)), lvl.length = 2 ^ k →
      2 ^ k ≤ fuel → ∀ i, i < lvl.length →
        List.foldl f (lvl.getD i []) (proofPath (buildLevelsGo f fuel lvl) i) =
          rootD (buildLevelsGo f fuel lvl) := by
  intro k
  induction k with
  | zero =>
    intro fuel lvl hlen _ i hi
    have h1 : lvl.length = 1 := hlen
    have hi0 : i = 0 := by omega
    subst hi0
    obtain ⟨x, hx⟩ : ∃ x, lvl = [x] := by
      cases lvl with
      | nil => simp at h1
      | cons y ys =>
        cases ys with
        | nil => exact ⟨y, rfl⟩
        | cons z zs => simp at h1
    subst hx
    cases fuel with
    | zero => simp [buildLevelsGo, proofPath, rootD]
    | succ fuel2 => simp [buildLevelsGo, proofPath, rootD]
  | succ k ih =>
    intro fuel lvl hlen hfuel i hi
    have hm : lvl.length = 2 * 2 ^ k := by rw [hlen]; ring
    have hpos : 0 < 2 ^ k := Nat.pos_pow_of_pos k (by norm_num)
    have hnotle : ¬ lvl.length ≤ 1 := by omega
    obtain ⟨fuel2, rfl⟩ : ∃ fuel2, fuel = fuel2 + 1 := by
      cases fuel with
      | zero =>
        exfalso
        have h2 : 0 < 2 ^ (k + 1) := Nat.pos_pow_of_pos (k + 1) (by norm_num)
        omega
      | succ m => exact ⟨m, rfl⟩
    simp only [buildLevelsGo, if_neg hnotle]
    have hplen : (pairUp f lvl).length = 2 ^ k := by
      rw [pairUp_length, hm]
      omega
    obtain ⟨r, rs, hrr⟩ :=
      List.exists_cons_of_ne_nil (buildLevelsGo_ne_nil f fuel2 (pairUp f lvl))
    have hidiv : i / 2 < 2 ^ k := by omega
    have hfuel2 : 2 ^ k ≤ fuel2 := by
      have h3 : 2 ^ (k + 1) = 2 * 2 ^ k := by ring
      omega
    have hih := ih fuel2 (pairUp f lvl) hplen hfuel2 (i / 2) (by omega)
    rw [hrr]
    show List.foldl f (lvl.getD i [])
        ((match lvl[if i % 2 == 1 then i - 1 else i + 1]? with
          | some s => [s]
          | none => []) ++ proofPath (r :: rs) (i / 2)) =
      rootD (lvl :: r :: rs)
    have hsib : (if i % 2 == 1 then i - 1 else i + 1) < lvl.length := by
      rcases Nat.even_or_odd i with he | ho
      · have h0 : i % 2 = 0 := Nat.even_iff.1 he
        have hb : (i % 2 == 1) = false := by simp [h0]
        rw [hb]
        simp only [Bool.false_eq_true, if_false]
        omega
      · have h0 : i % 2 = 1 := Nat.odd_iff.1 ho
        have hb : (i % 2 == 1) = true := by simp [h0]
        rw [hb]
        simp only [if_true]
        omega
    rw [getD_eq_some_getElem hsib]
    show List.foldl f (lvl.getD i [])
        (lvl.getD (if i % 2 == 1 then i - 1 else i + 1) [] :: proofPath (r :: rs) (i / 2)) =
      rootD (lvl :: r :: rs)
    rw [List.foldl_cons]
    have hcomb : f (lvl.getD i [])
        (lvl.getD (if i % 2 == 1 then i - 1 else i + 1) []) =
        (pairUp f lvl).getD (i / 2) [] := by
      rcases Nat.even_or_odd i with he | ho
      · have h0 : i % 2 = 0 := Nat.even_iff.1 he
        have hb : (i % 2 == 1) = false := by simp [h0]
        rw [hb]
        simp only [Bool.false_eq_true, if_false]
        rw [pairUp_getD f lvl (i / 2) (by omega)]
        have hieq : 2 * (i / 2) = i := by omega
        rw [hieq]
      · have h0 : i % 2 = 1 := Nat.odd_iff.1 ho
        have hb : (i % 2 == 1) = true := by simp [h0]
        rw [hb]
        simp only [if_true]
        rw [pairUp_getD f lvl (i / 2) (by omega)]
        have hieq1 : 2 * (i / 2) = i - 1 := by omega
        have hieq2 : 2 * (i / 2) + 1 = i := by omega
        rw [hieq2, hieq1, hf]
    rw [hcomb, rootD_cons (by simp)]
    rw [← hrr]
    exact hih

/-- C7: for every tree built from at least one leaf and every index within
the unpadded leaf count, `getProof` returns a proof and `verify` accepts it
against the tree root, for an arbitrary hash primitive `sha` (the
combination step is order independent because `hashNode` sorts its
arguments). -/
theorem merkle_round_trip (sha : List Nat → List Nat) (leaves : List (List Nat))
    (i : Nat) (hne : leaves ≠ []) (hi : i < leaves.length) :
    ∃ t p, buildTree sha leaves = some t ∧ getProof t (i : Int) = some p ∧
      verify sha (leaves.getD i []) p t.root = true := by
  set padded : List (List Nat) :=
    leaves ++ List.replicate (nextPow2 leaves.length - leaves.length) zeroBuf
    with hpad
  have hge := nextPow2_ge leaves.length
  have hpadlen : padded.length = nextPow2 leaves.length := by
    rw [hpad]
    simp only [List.length_append, List.length_replicate]
    omega
  set levels := buildLevels (hashNode sha) padded with hlev
  have hb : buildTree sha leaves = some ⟨rootD levels, padded, levels⟩ := by
    simp only [buildTree, if_neg hne]
  have hipad : i < padded.length := by omega
  have hcond : ¬((i : Int) < 0 ∨ (padded.length : Int) ≤ (i : Int)) := by
    push_neg
    constructor
    · exact Int.ofNat_nonneg i
    · exact_mod_cast hipad
  have hproof : getProof ⟨rootD levels, padded, levels⟩ (i : Int) =
      some ⟨padded.getD (Int.toNat (i : Int)) [], (i : Int),
        proofPath levels (Int.toNat (i : Int))⟩ := by
    simp only [getProof, if_neg hcond]
  refine ⟨⟨rootD levels, padded, levels⟩,
    ⟨padded.getD (Int.toNat (i : Int)) [], (i : Int),
      proofPath levels (Int.toNat (i : Int))⟩, hb, hproof, ?_⟩
  have htn : Int.toNat (i : Int) = i := Int.toNat_natCast i
  obtain ⟨k, hk⟩ := nextPow2_pow leaves.length
  have hfold := buildLevelsGo_verify (hashNode sha) (hashNode_comm sha) k
    padded.length padded (by omega) (by omega) i hipad
  have hleaf : padded.getD i [] = leaves.getD i [] :=
    List.getD_append leaves _ [] i hi
  simp only [verify, htn, hleaf]
  rw [decide_eq_true_eq]
  show List.foldl (hashNode sha) (leaves.getD i []) (proofPath levels i) =
    rootD levels
  rw [hlev]
  rw [← hleaf]
  exact hfold

/-- C5 amended: for a tree built from `N ≥ 1` leaves, `getProof` returns
null exactly when the index is negative or at least the PADDED leaf count
`nextPow2 N` (`tree.leaves.length`), not the unpadded count. -/
theorem getProof_none_iff_amended (sha : List Nat → List Nat)
    (leaves : List (List Nat)) (t : MerkleTree)
    (hb : buildTree sha leaves = some t) (idx : Int) :
    getProof t idx = none ↔
      (idx < 0 ∨ ((nextPow2 leaves.length : Nat) : Int) ≤ idx) := by
  have hne : leaves ≠ [] := by
    intro h
    rw [h] at hb
    simp [buildTree] at hb
  have hge := nextPow2_ge leaves.length
  simp only [buildTree, if_neg hne] at hb
  have ht := Option.some.inj hb
  have hts : t.leaves.length = nextPow2 leaves.length := by
    rw [← ht]
    simp only [List.length_append, List.length_replicate]
    omega
  have hcast : ((t.leaves.length : Nat) : Int) =
      ((nextPow2 leaves.length : Nat) : Int) := by exact_mod_cast hts
  constructor
  · intro hnone
    by_contra hcon
    push_neg at hcon
    have hcond : ¬(idx < 0 ∨ ((t.leaves.length : Nat) : Int) ≤ idx) := by
      push_neg
      refine ⟨hcon.1, ?_⟩
      rw [hcast]
      exact hcon.2
    rw [getProof, if_neg hcond] at hnone
    simp at hnone
  · intro h
    have hcond : idx < 0 ∨ ((t.leaves.length : Nat) : Int) ≤ idx := by
      rcases h with h | h
      · exact Or.inl h
      · refine Or.inr ?_
        rw [hcast]
        exact h
    rw [getProof, if_pos hcond]

/-- C5 counterexample: a tree built from three leaves has four padded
leaves, and `getProof` at index `3` (which is at or beyond the unpadded
count `3`) returns a proof, not null — the claim says it must be null for
every index at or beyond the unpadded leaf count. -/
theorem getProof_unpadded_counterexample :
    ([cLeaf1, cLeaf2, cLeaf3] : List (List Nat)).length = 3 ∧
      ((buildTree cSha [cLeaf1, cLeaf2, cLeaf3]).bind
        (fun t => getProof t 3)).isSome = true := by
  constructor
  · rfl
  · decide

/-- C5 witness: the amended boundary theorem applied to the concrete
three-leaf tree at index `5`, which is at or beyond the padded count `4`, so
`getProof` returns null. -/
theorem getProof_none_iff_amended_witness :
    buildTree cSha [cLeaf1, cLeaf2, cLeaf3] = some cTree3 ∧
      (getProof cTree3 5 = none ↔
        ((5 : Int) < 0 ∨
          ((nextPow2 ([cLeaf1, cLeaf2, cLeaf3] : List (List Nat)).length : Nat) :
            Int) ≤ 5)) :=
  ⟨by decide,
    getProof_none_iff_amended cSha [cLeaf1, cLeaf2, cLeaf3] cTree3 (by decide) 5⟩

/-- C7 witness: the round-trip theorem applied to the concrete three-leaf
tree at leaf index `2`. -/
theorem merkle_round_trip_witness :
    ∃ t p, buildTree cSha [cLeaf1, cLeaf2, cLeaf3] = some t ∧
      getProof t ((2 : Nat) : Int) = some p ∧
      verify cSha (([cLeaf1, cLeaf2, cLeaf3] : List (List Nat)).getD 2 []) p
        t.root = true :=
  merkle_round_trip cSha [cLeaf1, cLeaf2, cLeaf3] 2 (by simp) (by norm_num)

theorem planSingleBatch_new {state : List PlannedBatch} {t : Int}
    (h : ∀ b ∈ state, ¬(t - 100 ≤ b.eta ∧ b.eta ≤ t + 100)) :
    planSingleBatch state t =
      state ++ [⟨t.fdiv slotDurationMs, t, BatchPlanStatus.PLANNED⟩] := by
  have hany : state.any (fun b =>
      decide (t - 100 ≤ b.eta) && decide (b.eta ≤ t + 100)) = false := by
    rw [List.any_eq_false]
    intro b hb
    specialize h b hb
    simp only [Bool.and_eq_true, decide_eq_true_eq]
    tauto
  simp only [planSingleBatch]
  rw [if_neg]
  rw [hany]
  simp

theorem foldl_planSingleBatch_all_new :
    ∀ (ts : List Int) (state : List PlannedBatch),
      (∀ t ∈ ts, ∀ b ∈ state, ¬(t - 100 ≤ b.eta ∧ b.eta ≤ t + 100)) →
      List.Pairwise (fun t u => t + 100 < u) ts →
      ts.foldl planSingleBatch state =
        state ++ ts.map
          (fun t => ⟨t.fdiv slotDurationMs, t, BatchPlanStatus.PLANNED⟩)
  | [], state, _, _ => by simp
  | t :: rest, state, h, hpw => by
      rw [List.foldl_cons,
        planSingleBatch_new (h t (List.mem_cons_self t rest))]
      rw [List.pairwise_cons] at hpw
      rw [foldl_planSingleBatch_all_new rest _ ?_ hpw.2]
      · simp
      · intro u hu b hb
        rcases List.mem_append.1 hb with hb | hb
        · exact h u (List.mem_cons_of_mem t hu) b hb
        · simp only [List.mem_singleton] at hb
          rw [hb]
          have := hpw.1 u hu
          intro hcon
          simp at hcon
          omega

theorem latestFutureEta_now_lt {state : List PlannedBatch} {now e : Int}
    (h : latestFutureEta state now = some e) : now < e := by
  unfold latestFutureEta at h
  have hmem : e ∈ (futureKnown state now).map PlannedBatch.eta :=
    List.max?_mem (fun a b => max_choice a b) h
  obtain ⟨b, hb, rfl⟩ := List.mem_map.1 hmem
  unfold futureKnown at hb
  have := List.of_mem_filter hb
  simpa using this

/-- C4 amended: a planning pass with a known future batch at maximal eta `e`
(every persisted batch at eta at most `e`) and cadence at least one second
always appends exactly `lookAheadBatches` new PLANNED batches, with etas
`e + cadence, e + 2*cadence, ...` spaced exactly one cadence apart, so the
market's future PLANNED/INCLUSION_PUBLISHED batch count grows by
`lookAheadBatches` on every pass instead of stabilizing at the configured
look-ahead. -/
theorem planMarketBatches_amended (state : List PlannedBatch) (now e c : Int)
    (L : Nat) (hlatest : latestFutureEta state now = some e)
    (hbound : ∀ b ∈ state, b.eta ≤ e) (hc : 1 ≤ c) :
    planMarketBatches now state c L =
      state ++ (List.range L).map (fun i : Nat =>
        ⟨(e + c * 1000 + (i : Int) * (c * 1000)).fdiv slotDurationMs,
          e + c * 1000 + (i : Int) * (c * 1000), BatchPlanStatus.PLANNED⟩) ∧
    (futureKnown (planMarketBatches now state c L) now).length =
      (futureKnown state now).length + L := by
  have hnow : now < e := latestFutureEta_now_lt hlatest
  have htsform : calculateBatchesToPlan now (latestFutureEta state now) c L =
      (List.range L).map (fun i : Nat => e + c * 1000 + (i : Int) * (c * 1000)) := by
    rw [hlatest]
    simp [calculateBatchesToPlan]
  have hmem_t : ∀ t ∈ (List.range L).map
      (fun i : Nat => e + c * 1000 + (i : Int) * (c * 1000)), e + 1000 ≤ t := by
    intro t ht
    obtain ⟨i, _, rfl⟩ := List.mem_map.1 ht
    have h1 : (0 : Int) ≤ (i : Int) := Int.ofNat_nonneg i
    nlinarith
  have hfold : planMarketBatches now state c L =
      state ++ ((List.range L).map
        (fun i : Nat => e + c * 1000 + (i : Int) * (c * 1000))).map
        (fun t => ⟨t.fdiv slotDurationMs, t, BatchPlanStatus.PLANNED⟩) := by
    unfold planMarketBatches
    rw [htsform]
    refine foldl_planSingleBatch_all_new _ _ ?_ ?_
    · intro t ht b hb hcon
      have h1 := hmem_t t ht
      have h2 := hbound b hb
      omega
    · refine List.Pairwise.map _ ?_ (List.pairwise_lt_range L)
      intro a b hab
      have h1 : (a : Int) + 1 ≤ (b : Int) := by exact_mod_cast hab
      nlinarith
  constructor
  · rw [hfold, List.map_map]
    simp [Function.comp]
  · rw [hfold]
    unfold futureKnown
    rw [List.filter_append, List.filter_append]
    have hnew : ∀ p ∈ ((List.range L).map
        (fun i : Nat => e + c * 1000 + (i : Int) * (c * 1000))).map
        (fun t => (⟨t.fdiv slotDurationMs, t, BatchPlanStatus.PLANNED⟩ :
          PlannedBatch)), knownStatus p = true ∧ decide (now < p.eta) = true := by
      intro p hp
      obtain ⟨t, ht, rfl⟩ := List.mem_map.1 hp
      have h1 := hmem_t t ht
      constructor
      · simp [knownStatus]
      · simp only [decide_eq_true_eq]
        show now < t
        omega
    rw [List.filter_eq_self.2 (fun p hp => (hnew p hp).1)]
    rw [List.filter_eq_self.2 (fun p hp => (hnew p hp).2)]
    simp [List.length_append]

/-- C4 counterexample: with cadence 1s and lookAheadBatches = 2, starting
from no batches at time 0, the first pass creates 2 future batches; a second
pass at the same instant — when the deficit between the look-ahead target
and the known future batches is 0 — creates 2 more, leaving 4 future
PLANNED batches.  A pass therefore does not create only the deficit, and
the future batch count does not stabilize at the configured look-ahead. -/
theorem planMarketBatches_no_deficit_counterexample :
    (futureKnown (planMarketBatches 0 [] 1 2) 0).length = 2 ∧
      (futureKnown (planMarketBatches 0 (planMarketBatches 0 [] 1 2) 1 2) 0).length
        = 4 := by
  constructor
  · decide
  · decide

/-- C4 witness: the amended planning-pass theorem applied to a market with
one future PLANNED batch at eta 1000, cadence 1 and look-ahead 2 at time 0. -/
theorem planMarketBatches_amended_witness :
    planMarketBatches 0 [exPB] 1 2 =
      [exPB] ++ (List.range 2).map (fun i : Nat =>
        ⟨((1000 : Int) + 1 * 1000 + (i : Int) * (1 * 1000)).fdiv slotDurationMs,
          (1000 : Int) + 1 * 1000 + (i : Int) * (1 * 1000),
          BatchPlanStatus.PLANNED⟩) ∧
      (futureKnown (planMarketBatches 0 [exPB] 1 2) 0).length =
        (futureKnown [exPB] 0).length + 2 :=
  planMarketBatches_amended [exPB] 0 1000 1 2 (by decide)
    (by
      intro b hb
      simp only [List.mem_singleton] at hb
      rw [hb]
      decide)
    (by decide)

theorem findMinEtaGo :
    ∀ (l : List PlannedBatch) (a : PlannedBatch),
      ∃ r, l.foldl
          (fun acc b =>
            match acc with
            | none => some b
            | some x => if b.eta < x.eta then some b else some x)
          (some a) = some r ∧
        (r = a ∨ r ∈ l) ∧ r.eta ≤ a.eta ∧ ∀ b ∈ l, r.eta ≤ b.eta
  | [], a => ⟨a, rfl, Or.inl rfl, le_refl _, by simp⟩
  | b :: rest, a => by
      simp only [List.foldl_cons]
      by_cases hlt : b.eta < a.eta
      · obtain ⟨r, hr1, hr2, hr3, hr4⟩ := findMinEtaGo rest b
        rw [if_pos hlt] at *
        refine ⟨r, ?_, ?_, ?_, ?_⟩
        · simpa using hr1
        · rcases hr2 with rfl | h
          · exact Or.inr (List.mem_cons_self _ _)
          · exact Or.inr (List.mem_cons_of_mem _ h)
        · exact le_trans hr3 (le_of_lt hlt)
        · intro x hx
          rcases List.mem_cons.1 hx with rfl | hx
          · exact hr3
          · exact hr4 x hx
      · obtain ⟨r, hr1, hr2, hr3, hr4⟩ := findMinEtaGo rest a
        rw [if_neg hlt] at *
        refine ⟨r, ?_, ?_, ?_, ?_⟩
        · simpa using hr1
        · rcases hr2 with rfl | h
          · exact Or.inl rfl
          · exact Or.inr (List.mem_cons_of_mem _ h)
        · exact hr3
        · intro x hx
          rcases List.mem_cons.1 hx with rfl | hx
          · exact le_trans hr3 (le_of_not_lt hlt)
          · exact hr4 x hx

theorem findMinEta_nil : findMinEta [] = none := rfl

theorem findMinEta_cons (b : PlannedBatch) (rest : List PlannedBatch) :
    ∃ r, findMinEta (b :: rest) = some r ∧ r ∈ b :: rest ∧
      ∀ x ∈ b :: rest, r.eta ≤ x.eta := by
  obtain ⟨r, hr1, hr2, hr3, hr4⟩ := findMinEtaGo rest b
  refine ⟨r, ?_, ?_, ?_⟩
  · simpa [findMinEta] using hr1
  · rcases hr2 with rfl | h
    · exact List.mem_cons_self _ _
    · exact List.mem_cons_of_mem _ h
  · intro x hx
    rcases List.mem_cons.1 hx with rfl | hx
    · exact hr3
    · exact hr4 x hx

/-- C8: `findNextBatchForOrder` returns, when a batch is returned at all, a
PLANNED batch of the market whose eta is strictly later than
`now + cutoffLeadMs`, earliest (minimal eta) among all such batches, paired
with `cutoffTime = eta − cutoffLeadMs`; and it returns no batch (a null
batch, not an error) exactly when no batch qualifies. -/
theorem findNextBatchForOrder_spec (state : List PlannedBatch) (now lead : Int) :
    (∀ b ct, findNextBatchForOrder state now lead = (some b, ct) →
      b ∈ state ∧ b.status = BatchPlanStatus.PLANNED ∧ now + lead < b.eta ∧
        ct = b.eta - lead ∧
        ∀ b2 ∈ state, b2.status = BatchPlanStatus.PLANNED →
          now + lead < b2.eta → b.eta ≤ b2.eta) ∧
    ((findNextBatchForOrder state now lead).1 = none ↔
      ∀ b ∈ state, ¬(b.status = BatchPlanStatus.PLANNED ∧ now + lead < b.eta)) := by
  have hmemiff : ∀ b : PlannedBatch,
      b ∈ state.filter (fun x =>
        decide (x.status = BatchPlanStatus.PLANNED) &&
          decide (now + lead < x.eta)) ↔
      b ∈ state ∧ b.status = BatchPlanStatus.PLANNED ∧ now + lead < b.eta := by
    intro b
    rw [List.mem_filter]
    simp [Bool.and_eq_true, decide_eq_true_eq, and_assoc]
  cases hc : state.filter (fun x =>
      decide (x.status = BatchPlanStatus.PLANNED) &&
        decide (now + lead < x.eta)) with
  | nil =>
    have hres : findNextBatchForOrder state now lead = (none, now) := by
      simp only [findNextBatchForOrder, hc]
      rfl
    constructor
    · intro b ct heq
      rw [hres] at heq
      exact absurd (congrArg Prod.fst heq) (by simp)
    · rw [hres]
      simp only [true_iff]
      intro b hb hcon
      have : b ∈ state.filter (fun x =>
          decide (x.status = BatchPlanStatus.PLANNED) &&
            decide (now + lead < x.eta)) := (hmemiff b).2 ⟨hb, hcon.1, hcon.2⟩
      rw [hc] at this
      exact absurd this (List.not_mem_nil b)
  | cons q rest =>
    obtain ⟨r, hr1, hr2, hr3⟩ := findMinEta_cons q rest
    have hres : findNextBatchForOrder state now lead =
        (some r, getBatchCutoffTime r.eta lead) := by
      simp only [findNextBatchForOrder, hc, hr1]
    have hrmem := (hmemiff r).1 (hc ▸ hr2)
    constructor
    · intro b ct heq
      rw [hres] at heq
      have hb : some r = some b := congrArg Prod.fst heq
      have hct : getBatchCutoffTime r.eta lead = ct := congrArg Prod.snd heq
      obtain rfl := Option.some.inj hb
      refine ⟨hrmem.1, hrmem.2.1, hrmem.2.2, ?_, ?_⟩
      · rw [← hct]
        rfl
      · intro b2 hb2 hs2 he2
        refine hr3 b2 ?_
        rw [← hc]
        exact (hmemiff b2).2 ⟨hb2, hs2, he2⟩
    · rw [hres]
      constructor
      · intro h
        exact absurd h (by simp)
      · intro hall
        exact absurd ⟨hrmem.2.1, hrmem.2.2⟩ (hall r hrmem.1)

/-- C8 witness: the query theorem applied to a single-batch market state
(PLANNED batch at eta 1000) at time 0 with cutoff lead 500, where the query
returns that batch with cutoff time 500. -/
theorem findNextBatchForOrder_spec_witness :
    exPB ∈ [exPB] ∧ exPB.status = BatchPlanStatus.PLANNED ∧
      (0 : Int) + 500 < exPB.eta ∧ (500 : Int) = exPB.eta - 500 ∧
      ∀ b2 ∈ [exPB], b2.status = BatchPlanStatus.PLANNED →
        (0 : Int) + 500 < b2.eta → exPB.eta ≤ b2.eta :=
  (findNextBatchForOrder_spec [exPB] 0 500).1 exPB 500 (by decide)

/-- C10: whenever `findNextBatchForOrder` finds no qualifying batch, it
returns a null batch together with `cutoffTime = now`, the current time — a
placeholder not derived from any batch; when a batch is returned, the
cutoff time is that batch's `eta − cutoffLeadMs`. -/
theorem findNextBatchForOrder_placeholder (state : List PlannedBatch)
    (now lead : Int) :
    ((findNextBatchForOrder state now lead).1 = none →
      findNextBatchForOrder state now lead = (none, now)) ∧
    (∀ b ct, findNextBatchForOrder state now lead = (some b, ct) →
      ct = b.eta - lead) := by
  cases hc : state.filter (fun x =>
      decide (x.status = BatchPlanStatus.PLANNED) &&
        decide (now + lead < x.eta)) with
  | nil =>
    have hres : findNextBatchForOrder state now lead = (none, now) := by
      simp only [findNextBatchForOrder, hc]
      rfl
    refine ⟨fun _ => hres, ?_⟩
    intro b ct heq
    rw [hres] at heq
    exact absurd (congrArg Prod.fst heq) (by simp)
  | cons q rest =>
    obtain ⟨r, hr1, _, _⟩ := findMinEta_cons q rest
    have hres : findNextBatchForOrder state now lead =
        (some r, getBatchCutoffTime r.eta lead) := by
      simp only [findNextBatchForOrder, hc, hr1]
    refine ⟨?_, ?_⟩
    · intro h
      rw [hres] at h
      exact absurd h (by simp)
    · intro b ct heq
      rw [hres] at heq
      obtain rfl := Option.some.inj (congrArg Prod.fst heq)
      have hct : getBatchCutoffTime r.eta lead = ct := congrArg Prod.snd heq
      rw [← hct]
      rfl

/-- C10 witness: the placeholder theorem applied to an empty market state at
time 5 with cutoff lead 7: the query returns no batch and cutoff time 5. -/
theorem findNextBatchForOrder_placeholder_witness :
    findNextBatchForOrder [] 5 7 = (none, 5) :=
  (findNextBatchForOrder_placeholder [] 5 7).1 (by decide)
